import Mathlib

/-!
Shallow embedding of `monte_python/EnhancedWatershedSegmenter.py`
(class `EnhancedWatershed`): quantization, local-maxima detection,
region growing (`set_maximum`), foothill removal, and the public
`label` entry point, together with theorems settling the spec claims.

Modelling conventions:
* 2-D numpy arrays become total functions `Nat → Nat → Int` (`Mark`);
  only the cells with row `< H` and column `< W` are meaningful.
* Python lists used as LIFO stacks (`as_bin`, `as_glob`, `hills`,
  `marked_so_far`) are Lean lists whose HEAD is the most recently
  appended element, so Python's `pop(-1)` is head pattern-matching.
  Lists traversed in insertion order (`foothills`, deferred seeds,
  per-bin pixel and center lists) are kept in insertion order.
* numpy basic slicing `a[s:t]` is modelled by `sliceIdx`: a negative
  start counts from the end of the axis (it is NOT clipped to 0), and
  stops are clamped to the axis length.  The source then rebuilds
  absolute coordinates as `relative + (p - d)` and indexes with them;
  for a wrapped (negative-start) slice those coordinates are negative
  and numpy's negative indexing adds the axis length back, landing on
  exactly the rows/columns the slice produced.  `windowCoords` folds
  these two steps into one and directly yields the absolute in-bounds
  coordinates that the source reads and writes (this identification is
  exact whenever the window radius is at most the axis length).
* The `while` loops of `set_maximum` and `remove_foothills` take a
  fuel argument and return `none` on exhaustion; termination theorems
  provide sufficient fuel.
* The cast `np.array(input_grid, dtype=np.int32)` is modelled by `i32`
  wrap-around on `Int`; downstream arrays hold small sentinel / bin /
  label values, far from the int32 range, for the runs considered.
* `int(np.round(1 + 0.5*np.sqrt(dist_btw_objects)))` (MIN_INFL) is a
  floating-point computation on the constructor argument; the model
  takes the resulting natural number `minInfl` as the configuration
  field, and `MAX_INFL = 2 * MIN_INFL` as in the source.  The inner
  `np.round(float(b) / max_bin * (MAX_INFL - MIN_INFL))` is modelled
  by exact rational round-half-to-even (`rndHalfEven`), which agrees
  with numpy whenever the quotient is exactly representable.
-/

set_option maxRecDepth 100000
set_option maxHeartbeats 1000000

namespace MontePython

/-- Sentinel `self.UNMARKED = -1`. -/
def UNMARKED : Int := -1

/-- Sentinel `self.GLOBBED = -3`. -/
def GLOBBED : Int := -3

/-- Sentinel `self.TOOSMALL = -4` (declared in `__init__`, never assigned). -/
def TOOSMALL : Int := -4

/-- Fixed `self.min_size = 6` from `__init__`. -/
def min_size : Nat := 6

/-- A pixel coordinate (row, column). -/
abbrev Coord := Nat × Nat

/-- A 2-D integer array, as a total function on coordinates. -/
abbrev Mark := Nat → Nat → Int

/-- Pointwise update of one cell of a 2-D array. -/
def upd (m : Mark) (c : Coord) (v : Int) : Mark :=
  fun i j => if i = c.1 ∧ j = c.2 then v else m i j

/-- Configuration of `EnhancedWatershed.__init__`.  `max_size` is the
`area_threshold` argument; `minInfl` is the value of `MIN_INFL`
(see the module docstring for the float provenance). -/
structure EW where
  min_thresh : Int
  data_increment : Int
  max_thresh : Int
  max_size : Nat
  minInfl : Nat

/-- `self.max_bin = int((max_thresh - min_thresh) / data_increment)`:
float true division followed by `int` truncation toward zero. -/
def EW.max_bin (ew : EW) : Int := Int.tdiv (ew.max_thresh - ew.min_thresh) ew.data_increment

/-- Number of keys of the `pixels` dictionary, `range(max_bin + 1)`. -/
def EW.binCount (ew : EW) : Nat := (ew.max_bin + 1).toNat

/-- Wrap-around of numpy's `int32`. -/
def i32 (x : Int) : Int := (x + 2147483648) % 4294967296 - 2147483648

/-- Quantization of one cell (`quantize`, lines 316-321): cast to int32,
subtract `min_thresh`, floor-divide by `data_increment`, exclude
below-threshold levels as `-1`, clamp levels above `max_bin`. -/
def quantizeCell (ew : EW) (v : Int) : Int :=
  let lvl := Int.fdiv (i32 (i32 v - ew.min_thresh)) ew.data_increment
  let e := if ew.min_thresh = 0 then (if lvl ≤ 0 then -1 else lvl)
           else (if lvl < 0 then -1 else lvl)
  if e > ew.max_bin then ew.max_bin else e

/-- The quantized data array `q_data`. -/
def quantizeData (ew : EW) (g : Mark) : Mark :=
  fun i j => quantizeCell ew (g i j)

/-- The bin index `pixels`: for each bin `b` in `0..max_bin`, the cells
whose quantized value equals `b`, in row-major (`np.where`) order. -/
def pixelsOf (H W : Nat) (q : Mark) (b : Nat) : List Coord :=
  (List.range H).flatMap (fun i =>
    (List.range W).filterMap (fun j => if q i j = (b : Int) then some (i, j) else none))

/-- Python basic-slice semantics for one axis of length `n`: the list of
actual indices selected by `a[start:stop]`.  A negative bound counts
from the end of the axis; bounds are then clamped to `[0, n]`. -/
def sliceIdx (n : Nat) (start stop : Int) : List Nat :=
  let effS : Nat := if start < 0 then (start + n).toNat else min start.toNat n
  let effE : Nat := if stop < 0 then (stop + n).toNat else min stop.toNat n
  List.range' effS (effE - effS)

/-- Absolute coordinates read (and possibly written) by
`np.ndenumerate(a[p0-d : p0+d+1, p1-d : p1+d+1])` together with the
source's `relative - d + p` index reconstruction, in row-major order. -/
def windowCoords (H W : Nat) (p : Coord) (d : Nat) : List Coord :=
  (sliceIdx H ((p.1 : Int) - d) ((p.1 : Int) + d + 1)).flatMap (fun i =>
    (sliceIdx W ((p.2 : Int) - d) ((p.2 : Int) + d + 1)).map (fun j => (i, j)))

/-- Round-half-to-even of `num / den` (both natural), as `np.round`
computes on exactly representable quotients; `den = 0` yields `0`. -/
def rndHalfEven (num den : Nat) : Nat :=
  if den = 0 then 0
  else if 2 * (num % den) < den then num / den
  else if den < 2 * (num % den) then num / den + 1
  else if num / den % 2 = 0 then num / den else num / den + 1

/-- `infl_dist = MIN_INFL + int(np.round(float(b)/max_bin * (MAX_INFL - MIN_INFL)))`
(line 115), with `MAX_INFL - MIN_INFL = minInfl`. -/
def infl_dist (ew : EW) (b : Nat) : Nat :=
  ew.minInfl + rndHalfEven (b * ew.minInfl) ew.max_bin.toNat

/-- The inner neighborhood scan of `find_local_maxima` (lines 125-135):
walk the influence square in row-major order; an `UNMARKED` cell is set
to `b` and logged, any other cell aborts the scan with `ok = False`.
`ok` ends up `True` exactly when the square is nonempty and was fully
claimed. -/
def markSquare (bv : Int) : List Coord → Mark → List Coord → Bool → Bool × Mark × List Coord
  | [], m, log, ok => (ok, m, log)
  | c :: cs, m, log, _ =>
    if m c.1 c.2 = UNMARKED then markSquare bv cs (upd m c bv) (c :: log) true
    else (false, m, log)

/-- Reset every logged cell back to `UNMARKED` (`for m in marked_so_far:
marked[m] = self.UNMARKED`). -/
def rollback (m : Mark) (log : List Coord) : Mark :=
  log.foldl (fun m2 c => upd m2 c UNMARKED) m

/-- One bin of `find_local_maxima` (`for p in pixels[b]`): try every
pixel of the bin in order, claiming its influence square or rolling the
attempt back; `cs` accumulates `centers[b]` in append order. -/
def flm_bin (H W b d : Nat) : List Coord → Mark → List Coord → Mark × List Coord
  | [], m, cs => (m, cs)
  | p :: ps, m, cs =>
    if m p.1 p.2 = UNMARKED then
      match markSquare (b : Int) (windowCoords H W p d) m [] false with
      | (true, m2, _) => flm_bin H W b d ps m2 (cs ++ [p])
      | (false, m2, log) => flm_bin H W b d ps (rollback m2 log) cs
    else flm_bin H W b d ps m cs

/-- The `for b in sorted(pixels.keys(), reverse=True)` loop of
`find_local_maxima`; each bin of the dictionary occurs once, and its
center list is filled exactly when the bin is processed. -/
def flm_bins (H W : Nat) (ew : EW) (pixels : Nat → List Coord) :
    List Nat → Mark → (Nat → List Coord) → Mark × (Nat → List Coord)
  | [], m, cen => (m, cen)
  | b :: bs, m, cen =>
    let r := flm_bin H W b (infl_dist ew b) (pixels b) m []
    flm_bins H W ew pixels bs r.1 (fun b2 => if b2 = b then r.2 else cen b2)

/-- `find_local_maxima` (lines 91-143): bins from high to low over a
scratch claim grid initialized to `UNMARKED`; returns the per-bin
center lists. -/
def find_local_maxima (H W : Nat) (ew : EW) (pixels : Nat → List Coord) : Nat → List Coord :=
  (flm_bins H W ew pixels (List.range ew.binCount).reverse
    (fun _ _ => UNMARKED) (fun _ => [])).2

/-- Mutable state of the `while` loop of `set_maximum`. -/
structure FloodState where
  marked : Mark
  as_bin : List Coord
  as_glob : List Coord
  marked_so_far : List Coord
  wbca : Bool

/-- The neighbor scan of `set_maximum` (lines 223-234): for each window
cell, an `UNMARKED` neighbor updates `will_be_considered_again` and is
pushed on `as_bin` (value at least `bin_lower`) or `as_glob`
(non-negative value below `bin_lower`). -/
def scanNbrs (q : Mark) (bin_lower center_data : Int) : List Coord → FloodState → FloodState
  | [], st => st
  | c :: cs, st =>
    if st.marked c.1 c.2 = UNMARKED then
      scanNbrs q bin_lower center_data cs
        (if bin_lower ≤ q c.1 c.2 then
          { st with wbca := st.wbca || decide (0 ≤ q c.1 c.2 ∧ q c.1 c.2 < center_data),
                    as_bin := c :: st.as_bin }
         else if 0 ≤ q c.1 c.2 then
          { st with wbca := st.wbca || decide (0 ≤ q c.1 c.2 ∧ q c.1 c.2 < center_data),
                    as_glob := c :: st.as_glob }
         else
          { st with wbca := st.wbca || decide (0 ≤ q c.1 c.2 ∧ q c.1 c.2 < center_data) })
    else scanNbrs q bin_lower center_data cs st

/-- The `while len(as_bin) > 0` loop of `set_maximum` (lines 215-234):
pop a pixel, skip it if no longer `UNMARKED`, otherwise mark it with
the capture index, record it, and scan its 3x3 window. -/
def floodLoop (H W : Nat) (q : Mark) (bin_lower center_data ci : Int) :
    Nat → FloodState → Option FloodState
  | 0, _ => none
  | fuel + 1, st =>
    match st.as_bin with
    | [] => some st
    | p :: rest =>
      if st.marked p.1 p.2 ≠ UNMARKED then
        floodLoop H W q bin_lower center_data ci fuel { st with as_bin := rest }
      else
        floodLoop H W q bin_lower center_data ci fuel
          (scanNbrs q bin_lower center_data (windowCoords H W p 1)
            { marked := upd st.marked p ci, as_bin := rest, as_glob := st.as_glob,
              marked_so_far := p :: st.marked_so_far, wbca := st.wbca })

/-- Initial loop state of `set_maximum` (lines 209-213): the work list
holds the center, everything else is empty. -/
def initFlood (m : Mark) (c : Coord) : FloodState :=
  { marked := m, as_bin := [c], as_glob := [], marked_so_far := [], wbca := false }

/-- `set_maximum` (lines 193-252).  Returns
`(big_enough or not will_be_considered_again, marked, foothills)`. -/
def set_maximum (H W fuel : Nat) (ew : EW) (q marked : Mark) (center : Coord)
    (bin_lower : Int) (foothills : List (Coord × List Coord)) (ci : Int) :
    Option (Bool × Mark × List (Coord × List Coord)) :=
  let center_data := q center.1 center.2
  match floodLoop H W q bin_lower center_data ci fuel (initFlood marked center) with
  | none => none
  | some st =>
    let wbca := if bin_lower = 0 then false else st.wbca
    let fh :=
      if ew.max_size ≤ st.marked_so_far.length then foothills ++ [(center, st.as_glob)]
      else foothills
    let m2 :=
      if ew.max_size ≤ st.marked_so_far.length then st.marked
      else if st.marked_so_far.length ≤ min_size then rollback st.marked st.marked_so_far
      else if wbca then rollback st.marked st.marked_so_far
      else st.marked
    some (decide (ew.max_size ≤ st.marked_so_far.length) || !wbca, m2, fh)

/-- Squared Euclidean distance of `is_closest`. -/
def d2 (a b : Coord) : Int := ((a.1 : Int) - b.1) ^ 2 + ((a.2 : Int) - b.2) ^ 2

/-- `is_closest` (lines 289-300): `point` is closest to `center` unless a
recorded center in some bin from `bin_num / 2` to the last bin is
strictly nearer.  `nbins` is `len(centers.keys())`. -/
def is_closest (point center : Coord) (centers : Nat → List Coord) (bin_num nbins : Nat) : Bool :=
  let bin_thresh := bin_num / 2
  let my_dist := d2 point center
  (List.range' bin_thresh (nbins - bin_thresh)).all (fun o_bin =>
    (centers o_bin).all (fun c => !decide (d2 point c < my_dist)))

/-- The neighbor scan of `remove_foothills` (lines 278-286): push every
`UNMARKED` window neighbor whose quantized value is non-negative, below
`bin_lower`, and either descending or closest to the originating
center, onto the hills stack `acc`. -/
def hillPushes (q m2 : Mark) (bin_num nbins : Nat) (bin_lower : Int)
    (centers : Nat → List Coord) (center pt : Coord) :
    List Coord → List Coord → List Coord
  | [], acc => acc
  | c :: cs, acc =>
    if m2 c.1 c.2 = UNMARKED ∧ 0 ≤ q c.1 c.2 ∧ q c.1 c.2 < bin_lower ∧
        (q c.1 c.2 ≤ q pt.1 pt.2 ∨ is_closest c center centers bin_num nbins = true)
    then hillPushes q m2 bin_num nbins bin_lower centers center pt cs (c :: acc)
    else hillPushes q m2 bin_num nbins bin_lower centers center pt cs acc

/-- The `while len(hills) > 0` loop of `remove_foothills` (lines 274-286):
pop a point, mark it `GLOBBED`, and scan its 3x3 window. -/
def hillsLoop (H W : Nat) (q : Mark) (bin_num nbins : Nat) (bin_lower : Int)
    (centers : Nat → List Coord) (center : Coord) :
    Nat → Mark → List Coord → Option Mark
  | 0, _, _ => none
  | fuel + 1, m, hills =>
    match hills with
    | [] => some m
    | pt :: rest =>
      let m2 := upd m pt GLOBBED
      hillsLoop H W q bin_num nbins bin_lower centers center fuel m2
        (hillPushes q m2 bin_num nbins bin_lower centers center pt
          (windowCoords H W pt 1) rest)

/-- `remove_foothills` (lines 255-287): flood each foothill record in
turn; the caller's record list is cleared afterwards. -/
def remove_foothills (H W fuel : Nat) (q : Mark) (bin_num nbins : Nat) (bin_lower : Int)
    (centers : Nat → List Coord) (m : Mark) :
    List (Coord × List Coord) → Option Mark
  | [] => some m
  | (center, cand) :: rest =>
    match hillsLoop H W q bin_num nbins bin_lower centers center fuel m cand with
    | none => none
    | some m2 => remove_foothills H W fuel q bin_num nbins bin_lower centers m2 rest

/-- The `for i in range(tot_centers)` loop of `grow_centers` (lines
171-186): clamp `bin_lower`, skip seeds that are no longer `UNMARKED`,
grow the rest, incrementing the capture index on capture and deferring
the seed otherwise.  Returns the final
`(marked, capture_index, foothills, deferred_to_next, bin_lower)`. -/
def seedLoop (H W fuel : Nat) (ew : EW) (q : Mark) :
    List Coord → Int → Mark → Int → List (Coord × List Coord) → List Coord →
    Option (Mark × Int × List (Coord × List Coord) × List Coord × Int)
  | [], bl, m, ci, fh, dq => some (m, ci, fh, dq, bl)
  | c :: rest, bl, m, ci, fh, dq =>
    let bl2 := if bl < 0 then 0 else bl
    if m c.1 c.2 = UNMARKED then
      match set_maximum H W fuel ew q m c bl2 fh ci with
      | none => none
      | some (captured, m2, fh2) =>
        if captured then seedLoop H W fuel ew q rest bl2 m2 (ci + 1) fh2 dq
        else seedLoop H W fuel ew q rest bl2 m2 ci fh2 (dq ++ [c])
    else seedLoop H W fuel ew q rest bl2 m ci fh dq

/-- The per-bin loop of `grow_centers` (lines 164-187): at each level the
working seeds are the previous level's deferred seeds followed by this
bin's centers; afterwards `remove_foothills` runs and the record list
is cleared. -/
def levelLoop (H W fuel : Nat) (ew : EW) (q : Mark) (centers : Nat → List Coord) :
    List Nat → Mark → Int → List Coord → Option (Mark × Int)
  | [], m, ci, _ => some (m, ci)
  | b :: rest, m, ci, deferred =>
    match seedLoop H W fuel ew q (deferred ++ centers b) ((b : Int) - 1) m ci [] [] with
    | none => none
    | some (m2, ci2, fh, dq, bl) =>
      match remove_foothills H W fuel q b ew.binCount bl centers m2 fh with
      | none => none
      | some m3 => levelLoop H W fuel ew q centers rest m3 ci2 dq

/-- `grow_centers` (lines 146-190), also exposing the final capture
index (the source keeps it in a local variable). -/
def grow_centers (H W fuel : Nat) (ew : EW) (centers : Nat → List Coord) (q : Mark) :
    Option (Mark × Int) :=
  levelLoop H W fuel ew q centers (List.range ew.binCount).reverse (fun _ _ => UNMARKED) 1 []

/-- `label` (lines 50-66): quantize, find centers, grow them, and
optionally zero out everything that is not a positive label. -/
def label (ew : EW) (H W fuel : Nat) (g : Mark) (only_objects : Bool) : Option Mark :=
  let q := quantizeData ew g
  let centers := find_local_maxima H W ew (pixelsOf H W q)
  match grow_centers H W fuel ew centers q with
  | none => none
  | some (m, _) => some (if only_objects then fun i j => if 0 < m i j then m i j else 0 else m)

/-! Auxiliary vocabulary used only to state properties and concrete runs
(not part of the source model). -/

/-- Build a grid function from a row-major list of rows; cells outside
the given lists read as `UNMARKED`. -/
def gridOf (rows : List (List Int)) : Mark :=
  fun i j => (rows.getD i []).getD j UNMARKED

/-- Number of cells among the first `H` by `W` cells of `m` holding `v`. -/
def countv (H W : Nat) (m : Mark) (v : Int) : Nat :=
  (((Finset.range H) ×ˢ (Finset.range W)).filter (fun c => m c.1 c.2 = v)).card

/-- Modelled from the spec (claims C4/4.1): per-cell quantization rule as
the spec words it — `level = floor((value − min_thresh) / step)`,
exclusion of `level <= 0` (for `min_thresh = 0`) or `level < 0`
(otherwise) as `-1`, and clamping of levels above `max_bin`. -/
def specQuantizeCell (ew : EW) (v : Int) : Int :=
  let lvl := Int.fdiv (v - ew.min_thresh) ew.data_increment
  if (ew.min_thresh = 0 ∧ lvl ≤ 0) ∨ (ew.min_thresh ≠ 0 ∧ lvl < 0) then -1
  else min lvl ew.max_bin

/-- Modelled from the spec (claim C5): the neighborhood the spec
describes, namely the square window of half-width `d` around `p`
intersected with the grid bounds, in row-major order. -/
def clippedWindow (H W : Nat) (p : Coord) (d : Nat) : List Coord :=
  (List.range H).flatMap (fun (i : Nat) =>
    (List.range W).filterMap (fun (j : Nat) =>
      if (p.1 : Int) - d ≤ (i : Int) ∧ (i : Int) ≤ (p.1 : Int) + d ∧
         (p.2 : Int) - d ≤ (j : Int) ∧ (j : Int) ≤ (p.2 : Int) + d
      then some (i, j) else none))

/-! Concrete configurations and grids used by counterexample and witness
runs. -/

/-- Flat 3x3 grid sitting exactly at `min_thresh = 1`. -/
def ewFlat : EW :=
  { min_thresh := 1, data_increment := 1, max_thresh := 2, max_size := 7, minInfl := 1 }

/-- The all-ones grid. -/
def gFlat : Mark := fun _ _ => 1

/-- Single-bin 5x5 configuration: an isolated pixel plus a 6-pixel blob. -/
def ewTwo : EW :=
  { min_thresh := 1, data_increment := 1, max_thresh := 1, max_size := 5, minInfl := 1 }

/-- Quantized 3x3 grid for a direct `set_maximum` call: a peak of value 3
at (1,1) with one below-`bin_lower` neighbor of value 1 at (1,2). -/
def qDefer : Mark := gridOf [[-1, -1, -1], [-1, 3, 1], [-1, -1, -1]]

/-- Configuration for the direct `set_maximum` call on `qDefer`. -/
def ewDefer : EW :=
  { min_thresh := 0, data_increment := 1, max_thresh := 50, max_size := 50, minInfl := 1 }

/-! Generic helper lemmas about the embedding. -/

theorem i32_eq_self (x : Int) (h1 : -2147483648 ≤ x) (h2 : x < 2147483648) : i32 x = x := by
  unfold i32
  rw [Int.emod_eq_of_lt (by omega) (by omega)]
  omega

theorem mem_sliceIdx {n : Nat} {s t : Int} {i : Nat} :
    i ∈ sliceIdx n s t ↔
      (if s < 0 then (s + n).toNat else min s.toNat n) ≤ i ∧
        i < (if t < 0 then (t + n).toNat else min t.toNat n) := by
  simp only [sliceIdx, List.mem_range'_1]
  omega

theorem sliceIdx_lt {n : Nat} {s t : Int} {i : Nat} (h : i ∈ sliceIdx n s t) : i < n := by
  rcases mem_sliceIdx.mp h with ⟨h1, h2⟩
  revert h1 h2
  split_ifs <;> omega

theorem mem_windowCoords {H W : Nat} {p : Coord} {d : Nat} {c : Coord} :
    c ∈ windowCoords H W p d ↔
      c.1 ∈ sliceIdx H ((p.1 : Int) - d) ((p.1 : Int) + d + 1) ∧
        c.2 ∈ sliceIdx W ((p.2 : Int) - d) ((p.2 : Int) + d + 1) := by
  obtain ⟨x, y⟩ := c
  simp only [windowCoords, List.mem_flatMap, List.mem_map, Prod.mk.injEq]
  constructor
  · rintro ⟨i, hi, j, hj, rfl, rfl⟩
    exact ⟨hi, hj⟩
  · rintro ⟨hx, hy⟩
    exact ⟨x, hx, y, hy, rfl, rfl⟩

theorem windowCoords_bounds {H W : Nat} {p : Coord} {d : Nat} {c : Coord}
    (h : c ∈ windowCoords H W p d) : c.1 < H ∧ c.2 < W :=
  ⟨sliceIdx_lt (mem_windowCoords.mp h).1, sliceIdx_lt (mem_windowCoords.mp h).2⟩

theorem sliceIdx_low_nil {n x d : Nat} (hg : 2 * d + 1 ≤ n) (hx : x < d) :
    sliceIdx n ((x : Int) - d) ((x : Int) + d + 1) = [] := by
  rw [List.eq_nil_iff_forall_not_mem]
  intro i hi
  rcases mem_sliceIdx.mp hi with ⟨h1, h2⟩
  revert h1 h2
  split_ifs <;> omega

theorem windowCoords_low_nil {H W d : Nat} {p : Coord} (hg1 : 2 * d + 1 ≤ H)
    (hg2 : 2 * d + 1 ≤ W) (hxy : p.1 < d ∨ p.2 < d) :
    windowCoords H W p d = [] := by
  rw [List.eq_nil_iff_forall_not_mem]
  intro c hc
  rcases mem_windowCoords.mp hc with ⟨h1, h2⟩
  rcases hxy with hx | hy
  · rw [sliceIdx_low_nil hg1 hx] at h1
    exact absurd h1 (List.not_mem_nil _)
  · rw [sliceIdx_low_nil hg2 hy] at h2
    exact absurd h2 (List.not_mem_nil _)

theorem mem_clippedWindow {H W : Nat} {p : Coord} {d : Nat} {c : Coord} :
    c ∈ clippedWindow H W p d ↔
      c.1 < H ∧ c.2 < W ∧ (p.1 : Int) - d ≤ c.1 ∧ (c.1 : Int) ≤ (p.1 : Int) + d ∧
        (p.2 : Int) - d ≤ c.2 ∧ (c.2 : Int) ≤ (p.2 : Int) + d := by
  obtain ⟨x, y⟩ := c
  simp only [clippedWindow, List.mem_flatMap, List.mem_filterMap, List.mem_range]
  constructor
  · rintro ⟨i, hi, j, hj, hc⟩
    by_cases hcond : ((p.1 : Int) - d ≤ (i : Int) ∧ (i : Int) ≤ (p.1 : Int) + d ∧
        (p.2 : Int) - d ≤ (j : Int) ∧ (j : Int) ≤ (p.2 : Int) + d)
    · rw [if_pos hcond] at hc
      obtain ⟨rfl, rfl⟩ : i = x ∧ j = y := by simpa using hc
      exact ⟨hi, hj, hcond.1, hcond.2.1, hcond.2.2.1, hcond.2.2.2⟩
    · rw [if_neg hcond] at hc
      simp at hc
  · rintro ⟨hx, hy, h1, h2, h3, h4⟩
    exact ⟨x, hx, y, hy, by rw [if_pos ⟨h1, h2, h3, h4⟩]⟩

/-! Claim C4 — the quantization rule. -/

/-- Claim C4: for every cell, the quantizer computes
`level = floor((value - min_thresh) / step)`, excludes `level <= 0` as
`-1` when `min_thresh = 0` and only `level < 0` otherwise, and clamps
levels above `max_bin = floor((max_thresh - min_thresh) / step)`, for
any configuration with positive step, `min_thresh <= max_thresh`, and
data within int32 range. -/
theorem C4_quantizer_cell_rule (ew : EW) (v : Int)
    (hinc : 0 < ew.data_increment) (hle : ew.min_thresh ≤ ew.max_thresh)
    (hv1 : -1073741824 < v) (hv2 : v < 1073741824)
    (hm1 : -1073741824 ≤ ew.min_thresh) (hm2 : ew.min_thresh ≤ 1073741824) :
    quantizeCell ew v = specQuantizeCell ew v ∧
      ew.max_bin = Int.fdiv (ew.max_thresh - ew.min_thresh) ew.data_increment := by
  have hmb2 : ew.max_bin = Int.fdiv (ew.max_thresh - ew.min_thresh) ew.data_increment := by
    unfold EW.max_bin
    rw [Int.fdiv_eq_tdiv (by omega) (by omega)]
  have hmb : 0 ≤ ew.max_bin := by
    rw [hmb2]
    exact Int.fdiv_nonneg (by omega) (by omega)
  refine ⟨?_, hmb2⟩
  simp only [quantizeCell, specQuantizeCell]
  rw [i32_eq_self v (by omega) (by omega), i32_eq_self (v - ew.min_thresh) (by omega) (by omega)]
  rw [min_def]
  split_ifs <;> omega

/-- Witness for C4 at a concrete configuration and value. -/
theorem C4_quantizer_cell_rule_witness :
    quantizeCell ewFlat 1 = specQuantizeCell ewFlat 1 ∧
      ewFlat.max_bin = Int.fdiv (ewFlat.max_thresh - ewFlat.min_thresh) ewFlat.data_increment :=
  C4_quantizer_cell_rule ewFlat 1 (by decide) (by decide) (by decide) (by decide)
    (by decide) (by decide)

/-! Claim C5 — neighborhood windows at grid edges. -/

/-- Counterexample to claim C5: on a 3x3 grid the 3x3 window examined
around the corner pixel (0,0) is empty (the negative slice start wraps),
although the intersection of that square with the grid bounds contains
in-bounds neighbors such as (0,1); those in-bounds neighbors are
therefore never visited. -/
theorem C5_counterexample :
    windowCoords 3 3 (0, 0) 1 = [] ∧ (0, 1) ∈ clippedWindow 3 3 (0, 0) 1 := by
  constructor
  · decide
  · decide

/-- Claim C5 as amended: all cells examined through a window are
in-bounds (no out-of-bounds access ever happens), and whenever the
pixel is at least the radius away from the top and left edges the
examined window is exactly the clipped square; windows reaching past
the top or left edge lose their in-bounds neighbors instead of being
clipped. -/
theorem C5_windows_amended (H W : Nat) (p : Coord) (d : Nat) :
    (∀ c ∈ windowCoords H W p d, c.1 < H ∧ c.2 < W) ∧
      (d ≤ p.1 → d ≤ p.2 → p.1 < H → p.2 < W →
        ∀ c : Coord, c ∈ windowCoords H W p d ↔ c ∈ clippedWindow H W p d) := by
  constructor
  · intro c hc
    exact windowCoords_bounds hc
  · intro h1 h2 h3 h4 c
    rw [mem_windowCoords, mem_clippedWindow, mem_sliceIdx, mem_sliceIdx]
    split_ifs <;> omega

/-- Witness for C5 at a concrete interior pixel. -/
theorem C5_windows_amended_witness :
    ((1, 2) ∈ windowCoords 4 5 (2, 3) 1 ↔ (1, 2) ∈ clippedWindow 4 5 (2, 3) 1) ∧
      ((1, 2) : Coord).1 < 4 :=
  ⟨(C5_windows_amended 4 5 (2, 3) 1).2 (by decide) (by decide) (by decide) (by decide) (1, 2),
   ((C5_windows_amended 4 5 (2, 3) 1).1 (1, 2) (by decide)).1⟩

/-! Claim C10 — no center close to the top or left edge. -/

theorem flm_bin_mem {H W b d : Nat} {p : Coord} :
    ∀ (ps : List Coord) (m : Mark) (cs : List Coord),
      p ∈ (flm_bin H W b d ps m cs).2 →
      p ∈ cs ∨ (p ∈ ps ∧ windowCoords H W p d ≠ []) := by
  intro ps
  induction ps with
  | nil => intro m cs h; exact Or.inl h
  | cons p0 ps ih =>
    intro m cs h
    rw [flm_bin] at h
    by_cases hm : m p0.1 p0.2 = UNMARKED
    · rw [if_pos hm] at h
      rcases hms : markSquare (b : Int) (windowCoords H W p0 d) m [] false with ⟨ok, m2, log⟩
      rw [hms] at h
      cases ok with
      | true =>
        rcases ih _ _ h with hcs | ⟨hmem, hw⟩
        · rcases List.mem_append.mp hcs with hc1 | hc2
          · exact Or.inl hc1
          · have hp : p = p0 := by simpa using hc2
            subst hp
            refine Or.inr ⟨List.mem_cons_self _ _, fun hnil => ?_⟩
            rw [hnil] at hms
            simp [markSquare] at hms
        · exact Or.inr ⟨List.mem_cons_of_mem _ hmem, hw⟩
      | false =>
        rcases ih _ _ h with hcs | ⟨hmem, hw⟩
        · exact Or.inl hcs
        · exact Or.inr ⟨List.mem_cons_of_mem _ hmem, hw⟩
    · rw [if_neg hm] at h
      rcases ih _ _ h with hcs | ⟨hmem, hw⟩
      · exact Or.inl hcs
      · exact Or.inr ⟨List.mem_cons_of_mem _ hmem, hw⟩

theorem flm_bins_mem {H W : Nat} {ew : EW} {pixels : Nat → List Coord} {p : Coord} {b : Nat} :
    ∀ (bs : List Nat) (m : Mark) (cen : Nat → List Coord),
      p ∈ (flm_bins H W ew pixels bs m cen).2 b →
      p ∈ cen b ∨ (p ∈ pixels b ∧ windowCoords H W p (infl_dist ew b) ≠ []) := by
  intro bs
  induction bs with
  | nil => intro m cen h; exact Or.inl h
  | cons b0 bs ih =>
    intro m cen h
    rw [flm_bins] at h
    rcases ih _ _ h with hcen | hw
    · by_cases hb : b = b0
      · subst hb
        rw [if_pos rfl] at hcen
        rcases flm_bin_mem _ _ _ hcen with hnil | hw
        · exact absurd hnil (List.not_mem_nil _)
        · exact Or.inr hw
      · rw [if_neg hb] at hcen
        exact Or.inl hcen
    · exact Or.inr hw

/-- Claim C10: when the grid is at least `2*infl_dist+1` in each
dimension, `find_local_maxima` never selects a center whose row or
column index is smaller than that bin's influence half-width: the
wrapped numpy slice for such a pixel is empty, so `ok` stays false. -/
theorem C10_no_near_edge_center (H W : Nat) (ew : EW) (pixels : Nat → List Coord)
    (b : Nat) (p : Coord)
    (hH : 2 * infl_dist ew b + 1 ≤ H) (hW : 2 * infl_dist ew b + 1 ≤ W)
    (hp : p ∈ find_local_maxima H W ew pixels b) :
    infl_dist ew b ≤ p.1 ∧ infl_dist ew b ≤ p.2 := by
  unfold find_local_maxima at hp
  rcases flm_bins_mem _ _ _ hp with hnil | ⟨_, hw⟩
  · exact absurd hnil (List.not_mem_nil _)
  · constructor
    · by_contra hlt
      exact hw (windowCoords_low_nil hH hW (Or.inl (by omega)))
    · by_contra hlt
      exact hw (windowCoords_low_nil hH hW (Or.inr (by omega)))

/-- Witness for C10: on a 3x3 grid with a single bin-0 pixel at (1,1)
the selected center satisfies the bound. -/
theorem C10_no_near_edge_center_witness :
    infl_dist ewTwo 0 ≤ ((1, 1) : Coord).1 ∧ infl_dist ewTwo 0 ≤ ((1, 1) : Coord).2 :=
  C10_no_near_edge_center 3 3 ewTwo (fun b => if b = 0 then [(1, 1)] else []) 0 (1, 1)
    (by decide) (by decide) (by decide)

/-! Lemmas about the flood loop of `set_maximum`. -/

theorem upd_apply (m : Mark) (c : Coord) (v : Int) (x y : Nat) :
    upd m c v x y = if x = c.1 ∧ y = c.2 then v else m x y := rfl

theorem scanNbrs_marked (q : Mark) (bl cd : Int) :
    ∀ (cs : List Coord) (st : FloodState), (scanNbrs q bl cd cs st).marked = st.marked := by
  intro cs
  induction cs with
  | nil => intro st; rfl
  | cons c cs ih =>
    intro st
    rw [scanNbrs]
    by_cases h : st.marked c.1 c.2 = UNMARKED
    · rw [if_pos h]
      split_ifs <;> rw [ih]
    · rw [if_neg h]
      exact ih st

theorem scanNbrs_msf (q : Mark) (bl cd : Int) :
    ∀ (cs : List Coord) (st : FloodState),
      (scanNbrs q bl cd cs st).marked_so_far = st.marked_so_far := by
  intro cs
  induction cs with
  | nil => intro st; rfl
  | cons c cs ih =>
    intro st
    rw [scanNbrs]
    by_cases h : st.marked c.1 c.2 = UNMARKED
    · rw [if_pos h]
      split_ifs <;> rw [ih]
    · rw [if_neg h]
      exact ih st

theorem scanNbrs_as_bin_mem {q : Mark} {bl cd : Int} :
    ∀ (cs : List Coord) (st : FloodState) (c : Coord),
      c ∈ (scanNbrs q bl cd cs st).as_bin →
      c ∈ st.as_bin ∨ (c ∈ cs ∧ bl ≤ q c.1 c.2 ∧ st.marked c.1 c.2 = UNMARKED) := by
  intro cs
  induction cs with
  | nil => intro st c h; exact Or.inl h
  | cons c0 cs ih =>
    intro st c h
    rw [scanNbrs] at h
    by_cases hm : st.marked c0.1 c0.2 = UNMARKED
    · rw [if_pos hm] at h
      by_cases h1 : bl ≤ q c0.1 c0.2
      · rw [if_pos h1] at h
        rcases ih _ _ h with hb | ⟨h2, h3, h4⟩
        · rcases List.mem_cons.mp hb with rfl | hb2
          · exact Or.inr ⟨List.mem_cons_self _ _, h1, hm⟩
          · exact Or.inl hb2
        · exact Or.inr ⟨List.mem_cons_of_mem _ h2, h3, h4⟩
      · rw [if_neg h1] at h
        split_ifs at h
        all_goals
          rcases ih _ _ h with hb | ⟨h2, h3, h4⟩
        · exact Or.inl hb
        · exact Or.inr ⟨List.mem_cons_of_mem _ h2, h3, h4⟩
        · exact Or.inl hb
        · exact Or.inr ⟨List.mem_cons_of_mem _ h2, h3, h4⟩
    · rw [if_neg hm] at h
      rcases ih _ _ h with hb | ⟨h2, h3, h4⟩
      · exact Or.inl hb
      · exact Or.inr ⟨List.mem_cons_of_mem _ h2, h3, h4⟩

theorem scanNbrs_as_glob_mem {q : Mark} {bl cd : Int} :
    ∀ (cs : List Coord) (st : FloodState) (c : Coord),
      c ∈ (scanNbrs q bl cd cs st).as_glob →
      c ∈ st.as_glob ∨
        (c ∈ cs ∧ 0 ≤ q c.1 c.2 ∧ q c.1 c.2 < bl ∧ st.marked c.1 c.2 = UNMARKED) := by
  intro cs
  induction cs with
  | nil => intro st c h; exact Or.inl h
  | cons c0 cs ih =>
    intro st c h
    rw [scanNbrs] at h
    by_cases hm : st.marked c0.1 c0.2 = UNMARKED
    · rw [if_pos hm] at h
      by_cases h1 : bl ≤ q c0.1 c0.2
      · rw [if_pos h1] at h
        rcases ih _ _ h with hb | ⟨h2, h3, h4, h5⟩
        · exact Or.inl hb
        · exact Or.inr ⟨List.mem_cons_of_mem _ h2, h3, h4, h5⟩
      · rw [if_neg h1] at h
        by_cases h2 : (0 : Int) ≤ q c0.1 c0.2
        · rw [if_pos h2] at h
          rcases ih _ _ h with hb | ⟨h3, h4, h5, h6⟩
          · rcases List.mem_cons.mp hb with rfl | hb2
            · exact Or.inr ⟨List.mem_cons_self _ _, h2, by omega, hm⟩
            · exact Or.inl hb2
          · exact Or.inr ⟨List.mem_cons_of_mem _ h3, h4, h5, h6⟩
        · rw [if_neg h2] at h
          rcases ih _ _ h with hb | ⟨h3, h4, h5, h6⟩
          · exact Or.inl hb
          · exact Or.inr ⟨List.mem_cons_of_mem _ h3, h4, h5, h6⟩
    · rw [if_neg hm] at h
      rcases ih _ _ h with hb | ⟨h3, h4, h5, h6⟩
      · exact Or.inl hb
      · exact Or.inr ⟨List.mem_cons_of_mem _ h3, h4, h5, h6⟩

/-- Overlay invariant of the flood loop: the marked grid is the starting
grid with exactly the cells of `marked_so_far` (all previously
`UNMARKED`, each recorded once) overwritten by the capture index. -/
def FOv (m0 : Mark) (ci : Int) (st : FloodState) : Prop :=
  (∀ x y, st.marked x y = if (x, y) ∈ st.marked_so_far then ci else m0 x y) ∧
    (∀ p ∈ st.marked_so_far, m0 p.1 p.2 = UNMARKED) ∧ st.marked_so_far.Nodup

theorem floodLoop_FOv {H W : Nat} {q : Mark} {bl cd ci : Int} {m0 : Mark}
    (hci : ci ≠ UNMARKED) :
    ∀ (fuel : Nat) (st st2 : FloodState), FOv m0 ci st →
      floodLoop H W q bl cd ci fuel st = some st2 → FOv m0 ci st2 := by
  intro fuel
  induction fuel with
  | zero => intro st st2 _ h; exact absurd h (by simp [floodLoop])
  | succ fuel ih =>
    intro st st2 hinv h
    rw [floodLoop] at h
    rcases hbin : st.as_bin with _ | ⟨p, rest⟩
    · rw [hbin] at h
      dsimp only at h
      cases h
      exact hinv
    · rw [hbin] at h
      dsimp only at h
      by_cases hm : st.marked p.1 p.2 = UNMARKED
      · rw [if_neg (by simpa using hm)] at h
        have hnot : (p.1, p.2) ∉ st.marked_so_far := by
          intro hmem
          have := (hinv.1 p.1 p.2)
          rw [if_pos hmem] at this
          exact hci (this ▸ hm)
        have hm0 : m0 p.1 p.2 = UNMARKED := by
          have := (hinv.1 p.1 p.2)
          rw [if_neg hnot] at this
          exact this ▸ hm
        refine ih _ _ ⟨?_, ?_, ?_⟩ h
        · intro x y
          rw [scanNbrs_marked, scanNbrs_msf]
          simp only [upd_apply]
          by_cases hxy : x = p.1 ∧ y = p.2
          · obtain ⟨rfl, rfl⟩ := hxy
            have hpm : ((p.1, p.2) : Coord) ∈ p :: st.marked_so_far := by
              rw [show ((p.1, p.2) : Coord) = p from rfl]
              exact List.mem_cons_self _ _
            rw [if_pos (And.intro rfl rfl), if_pos hpm]
          · rw [if_neg hxy]
            have hinv1 := hinv.1 x y
            have hne : (x, y) ∉ [p] := by
              simp only [List.mem_singleton]
              intro hcon
              exact hxy ⟨congrArg Prod.fst hcon, congrArg Prod.snd hcon⟩
            by_cases hmem : (x, y) ∈ st.marked_so_far
            · rw [if_pos hmem] at hinv1
              rw [hinv1, if_pos (List.mem_cons_of_mem _ hmem)]
            · rw [if_neg hmem] at hinv1
              rw [hinv1, if_neg]
              intro hcon
              rcases List.mem_cons.mp hcon with hc1 | hc2
              · exact hne (by simp [hc1])
              · exact hmem hc2
        · intro p2 hp2
          rw [scanNbrs_msf] at hp2
          rcases List.mem_cons.mp hp2 with rfl | hmem
          · exact hm0
          · exact hinv.2.1 _ hmem
        · rw [scanNbrs_msf]
          exact List.nodup_cons.mpr ⟨hnot, hinv.2.2⟩
      · rw [if_pos (by simpa using hm)] at h
        exact ih { st with as_bin := rest } st2 hinv h

theorem rollback_apply :
    ∀ (log : List Coord) (m : Mark) (x y : Nat),
      rollback m log x y = if (x, y) ∈ log then UNMARKED else m x y := by
  intro log
  induction log with
  | nil => intro m x y; simp [rollback]
  | cons c log ih =>
    intro m x y
    show rollback (upd m c UNMARKED) log x y = _
    rw [ih]
    by_cases hmem : (x, y) ∈ log
    · rw [if_pos hmem, if_pos (List.mem_cons_of_mem _ hmem)]
    · rw [if_neg hmem, upd_apply]
      by_cases hxy : x = c.1 ∧ y = c.2
      · obtain ⟨rfl, rfl⟩ := hxy
        rw [if_pos ⟨rfl, rfl⟩, if_pos (by simp [List.mem_cons])]
      · rw [if_neg hxy, if_neg]
        intro hcon
        rcases List.mem_cons.mp hcon with hc1 | hc2
        · exact hxy ⟨congrArg Prod.fst hc1, congrArg Prod.snd hc1⟩
        · exact hmem hc2

theorem rollback_restores {m0 : Mark} {ci : Int} {st : FloodState} (hinv : FOv m0 ci st) :
    rollback st.marked st.marked_so_far = m0 := by
  funext x y
  rw [rollback_apply]
  by_cases hmem : (x, y) ∈ st.marked_so_far
  · rw [if_pos hmem]
    exact (hinv.2.1 _ hmem).symm
  · rw [if_neg hmem]
    have := hinv.1 x y
    rw [if_neg hmem] at this
    exact this

theorem initFlood_FOv (m : Mark) (c : Coord) (ci : Int) : FOv m ci (initFlood m c) := by
  refine ⟨?_, ?_, ?_⟩
  · intro x y
    simp [initFlood]
  · intro p hp
    simp [initFlood] at hp
  · simp [initFlood]

theorem set_maximum_none {H W fuel : Nat} {ew : EW} {q m : Mark} {c : Coord} {bl : Int}
    {fh : List (Coord × List Coord)} {ci : Int}
    (h : floodLoop H W q bl (q c.1 c.2) ci fuel (initFlood m c) = none) :
    set_maximum H W fuel ew q m c bl fh ci = none := by
  simp only [set_maximum]
  rw [h]

theorem set_maximum_some {H W fuel : Nat} {ew : EW} {q m : Mark} {c : Coord} {bl : Int}
    {fh : List (Coord × List Coord)} {ci : Int} {st : FloodState}
    (h : floodLoop H W q bl (q c.1 c.2) ci fuel (initFlood m c) = some st) :
    set_maximum H W fuel ew q m c bl fh ci =
      some (decide (ew.max_size ≤ st.marked_so_far.length)
          || !(if bl = 0 then false else st.wbca),
        (if ew.max_size ≤ st.marked_so_far.length then st.marked
         else if st.marked_so_far.length ≤ min_size then rollback st.marked st.marked_so_far
         else if ((if bl = 0 then false else st.wbca) : Bool) then
           rollback st.marked st.marked_so_far
         else st.marked),
        (if ew.max_size ≤ st.marked_so_far.length then fh ++ [(c, st.as_glob)]
         else fh)) := by
  simp only [set_maximum]
  rw [h]

/-! Claim C1 — return contract and rollback of the Flood Expander. -/

/-- Counterexample to claim C1 as stated: a region of a single pixel (at
or below `min_size`) whose lower-valued neighbor keeps it eligible for
reconsideration makes `set_maximum` return `False` (the seed is
deferred), whereas the claim requires `True` for every region whose
pixel count is at or below `min_size`. -/
theorem C1_counterexample :
    ¬ (∀ (H W fuel : Nat) (ew : EW) (q m : Mark) (c : Coord) (bl : Int)
        (fh : List (Coord × List Coord)) (ci : Int) (captured : Bool) (st : FloodState),
        1 ≤ ci → m c.1 c.2 = UNMARKED →
        floodLoop H W q bl (q c.1 c.2) ci fuel (initFlood m c) = some st →
        (set_maximum H W fuel ew q m c bl fh ci).map (fun r => r.1) = some captured →
        (captured = true ↔
          (ew.max_size ≤ st.marked_so_far.length ∨ st.marked_so_far.length ≤ min_size ∨
            (if bl = 0 then false else st.wbca) = false))) := by
  intro hclaim
  have hs : (floodLoop 3 3 qDefer 2 (qDefer 1 1) 1 50
      (initFlood (fun _ _ => UNMARKED) (1, 1))).isSome = true := by decide
  obtain ⟨st, hst⟩ := Option.isSome_iff_exists.mp hs
  have hlen : st.marked_so_far.length = 1 := by
    have h1 : (floodLoop 3 3 qDefer 2 (qDefer 1 1) 1 50
        (initFlood (fun _ _ => UNMARKED) (1, 1))).map
          (fun s => s.marked_so_far.length) = some 1 := by decide
    rw [hst] at h1
    simpa using h1
  have hiff := hclaim 3 3 50 ewDefer qDefer (fun _ _ => UNMARKED) (1, 1) 2 [] 1 false st
    (by decide) (by decide) hst (by decide)
  have hbad : (false : Bool) = true :=
    hiff.mpr (Or.inr (Or.inl (show st.marked_so_far.length ≤ min_size by
      rw [hlen]; decide)))
  simp at hbad

/-- Claim C1 as amended: for a seed whose label-grid cell is `UNMARKED`
(and a genuine capture index), `set_maximum` returns `True` exactly
when the region reached the maximum size or is not eligible for
reconsideration — a region at or below `min_size` that is still
eligible returns `False` and is re-queued — and whenever it returns
`False`, every pixel tentatively marked during the call has been reset
to `UNMARKED`, leaving the label grid unmodified. -/
theorem C1_flood_expander_amended (H W fuel : Nat) (ew : EW) (q m : Mark) (c : Coord)
    (bl : Int) (fh : List (Coord × List Coord)) (ci : Int) (captured : Bool)
    (hci : 1 ≤ ci) (_hc : m c.1 c.2 = UNMARKED)
    (hcap : (set_maximum H W fuel ew q m c bl fh ci).map (fun r => r.1) = some captured) :
    (captured = true ↔
      (floodLoop H W q bl (q c.1 c.2) ci fuel (initFlood m c)).map
        (fun st => decide (ew.max_size ≤ st.marked_so_far.length)
          || !(if bl = 0 then false else st.wbca)) = some true) ∧
    (captured = false →
      (set_maximum H W fuel ew q m c bl fh ci).map (fun r => r.2.1) = some m) := by
  have hne : ci ≠ UNMARKED := by unfold UNMARKED; omega
  rcases hfl : floodLoop H W q bl (q c.1 c.2) ci fuel (initFlood m c) with _ | st
  · rw [set_maximum_none hfl] at hcap
    simp at hcap
  · rw [set_maximum_some hfl] at hcap
    simp only [Option.map_some'] at hcap
    have hcapeq : captured = (decide (ew.max_size ≤ st.marked_so_far.length)
        || !(if bl = 0 then false else st.wbca)) := (Option.some.inj hcap).symm
    have hinv : FOv m ci st := floodLoop_FOv hne fuel _ _ (initFlood_FOv m c ci) hfl
    constructor
    · rw [hcapeq]
      simp
    · intro hfalse
      rw [hcapeq] at hfalse
      have hbig : ¬ (ew.max_size ≤ st.marked_so_far.length) := by
        intro hle
        rw [decide_eq_true hle] at hfalse
        simp at hfalse
      have hwb : (if bl = 0 then false else st.wbca) = true := by
        rcases hb : (if bl = 0 then false else st.wbca) with _ | _
        · rw [hb] at hfalse
          simp [hbig] at hfalse
        · rfl
      rw [set_maximum_some hfl]
      simp only [Option.map_some', Option.some.injEq]
      rw [if_neg (by simpa using hbig)]
      by_cases hsmall : st.marked_so_far.length ≤ min_size
      · rw [if_pos hsmall]
        exact rollback_restores hinv
      · rw [if_neg hsmall, if_pos (by simpa using hwb)]
        exact rollback_restores hinv

/-- Witness for the amended C1 at the deferral scenario: `set_maximum`
returns `False` and hands back the unmodified label grid. -/
theorem C1_flood_expander_amended_witness :
    ((false : Bool) = true ↔
      (floodLoop 3 3 qDefer 2 (qDefer 1 1) 1 50
        (initFlood (fun _ _ => UNMARKED) (1, 1))).map
        (fun st => decide (ewDefer.max_size ≤ st.marked_so_far.length)
          || !(if (2 : Int) = 0 then false else st.wbca)) = some true) ∧
    ((false : Bool) = false →
      (set_maximum 3 3 50 ewDefer qDefer (fun _ _ => UNMARKED) (1, 1) 2 [] 1).map
        (fun r => r.2.1) = some (fun _ _ => UNMARKED)) :=
  C1_flood_expander_amended 3 3 50 ewDefer qDefer (fun _ _ => UNMARKED) (1, 1) 2 [] 1 false
    (by decide) (by decide) (by decide)

/-! Claim C7 — grids at or below the minimum threshold. -/

theorem mem_pixelsOf {H W : Nat} {q : Mark} {b : Nat} {p : Coord} :
    p ∈ pixelsOf H W q b ↔ p.1 < H ∧ p.2 < W ∧ q p.1 p.2 = (b : Int) := by
  obtain ⟨x, y⟩ := p
  simp only [pixelsOf, List.mem_flatMap, List.mem_filterMap, List.mem_range]
  constructor
  · rintro ⟨i, hi, j, hj, hc⟩
    by_cases hq : q i j = (b : Int)
    · rw [if_pos hq] at hc
      obtain ⟨rfl, rfl⟩ : i = x ∧ j = y := by simpa using hc
      exact ⟨hi, hj, hq⟩
    · rw [if_neg hq] at hc
      simp at hc
  · rintro ⟨hx, hy, hq⟩
    exact ⟨x, hx, y, hy, by rw [if_pos hq]⟩

theorem flm_bins_empty {H W : Nat} {ew : EW} {pixels : Nat → List Coord}
    (hpix : ∀ b, pixels b = []) :
    ∀ (bs : List Nat) (m : Mark) (cen : Nat → List Coord), (∀ b, cen b = []) →
      ∀ b, (flm_bins H W ew pixels bs m cen).2 b = [] := by
  intro bs
  induction bs with
  | nil => intro m cen hcen b; exact hcen b
  | cons b0 bs ih =>
    intro m cen hcen b
    rw [flm_bins]
    refine ih _ _ ?_ b
    intro b2
    by_cases hb : b2 = b0
    · rw [if_pos hb, hpix b0]
      rfl
    · rw [if_neg hb]
      exact hcen b2

theorem find_local_maxima_empty {H W : Nat} {ew : EW} {pixels : Nat → List Coord}
    (hpix : ∀ b, pixels b = []) (b : Nat) :
    find_local_maxima H W ew pixels b = [] := by
  unfold find_local_maxima
  exact flm_bins_empty hpix _ _ _ (fun _ => rfl) b

theorem levelLoop_no_centers {H W fuel : Nat} {ew : EW} {q : Mark}
    {centers : Nat → List Coord} (hcen : ∀ b, centers b = []) :
    ∀ (bs : List Nat) (m : Mark) (ci : Int),
      levelLoop H W fuel ew q centers bs m ci [] = some (m, ci) := by
  intro bs
  induction bs with
  | nil => intro m ci; rfl
  | cons b bs ih =>
    intro m ci
    rw [levelLoop, hcen b]
    exact ih m ci

/-- Counterexample to claim C7 as stated: a 3x3 grid whose cells all
equal `min_thresh = 1` (hence are at or below `min_thresh`) quantizes to
bin 0 everywhere, (1,1) becomes a center, and `label` emits a positive
label at (1,1) instead of an all-zero grid. -/
theorem C7_counterexample :
    ¬ (∀ (ew : EW) (H W fuel : Nat) (g : Mark) (i j : Nat) (v : Int),
        (∀ x < H, ∀ y < W, g x y ≤ ew.min_thresh) →
        (label ew H W fuel g true).map (fun m => m i j) = some v → v = 0) := by
  intro hclaim
  have h := hclaim ewFlat 3 3 100 gFlat 1 1 1
    (by intro x _ y _; simp [gFlat, ewFlat]) (by decide)
  exact absurd h (by decide)

/-- Claim C7 as amended: when every in-range cell is strictly below
`min_thresh` (at or below 0 when `min_thresh = 0`), quantization
excludes every cell, no center is found, and `label` returns the
all-zero grid.  A flat grid exactly at a nonzero `min_thresh` is NOT
covered (see the counterexample). -/
theorem C7_below_threshold_amended (ew : EW) (H W fuel : Nat) (g : Mark) (i j : Nat) (v : Int)
    (hinc : 0 < ew.data_increment) (hle : ew.min_thresh ≤ ew.max_thresh)
    (hm1 : -1073741824 ≤ ew.min_thresh) (hm2 : ew.min_thresh ≤ 1073741824)
    (hg : ∀ x < H, ∀ y < W, -1073741824 < g x y ∧ g x y < 1073741824 ∧
      (if ew.min_thresh = 0 then g x y ≤ 0 else g x y < ew.min_thresh))
    (hout : (label ew H W fuel g true).map (fun m => m i j) = some v) :
    v = 0 := by
  have hmb : 0 ≤ ew.max_bin := by
    unfold EW.max_bin
    rw [← Int.fdiv_eq_tdiv (by omega) (by omega)]
    exact Int.fdiv_nonneg (by omega) (by omega)
  have hq : ∀ x, x < H → ∀ y, y < W → quantizeData ew g x y = -1 := by
    intro x hx y hy
    obtain ⟨hb1, hb2, hbelow⟩ := hg x hx y hy
    simp only [quantizeData, quantizeCell]
    rw [i32_eq_self (g x y) (by omega) (by omega),
      i32_eq_self (g x y - ew.min_thresh) (by omega) (by omega)]
    rw [Int.fdiv_eq_ediv _ (by omega)]
    by_cases h0 : ew.min_thresh = 0
    · rw [if_pos h0] at hbelow ⊢
      have hl : (g x y - ew.min_thresh) / ew.data_increment ≤ 0 := by
        have := Int.ediv_le_ediv hinc (show g x y - ew.min_thresh ≤ 0 by omega)
        rwa [Int.zero_ediv] at this
      rw [if_pos hl, if_neg (by omega)]
    · rw [if_neg h0] at hbelow ⊢
      have hl : (g x y - ew.min_thresh) / ew.data_increment < 0 :=
        Int.ediv_neg' (by omega) hinc
      rw [if_pos hl, if_neg (by omega)]
  have hpix : ∀ b, pixelsOf H W (quantizeData ew g) b = [] := by
    intro b
    rw [List.eq_nil_iff_forall_not_mem]
    intro p hp
    obtain ⟨h1, h2, h3⟩ := mem_pixelsOf.mp hp
    rw [hq p.1 h1 p.2 h2] at h3
    omega
  have hcen : ∀ b, find_local_maxima H W ew (pixelsOf H W (quantizeData ew g)) b = [] :=
    find_local_maxima_empty hpix
  simp only [label, grow_centers] at hout
  rw [levelLoop_no_centers hcen] at hout
  simp only [Option.map_some'] at hout
  have : (if 0 < UNMARKED then UNMARKED else 0) = v := by
    exact Option.some.inj hout
  rw [if_neg (by decide)] at this
  omega

/-- Witness for the amended C7: a 2x2 grid of zeros with `min_thresh = 1`
labels to zero at (0,0). -/
theorem C7_below_threshold_amended_witness : (0 : Int) = 0 :=
  C7_below_threshold_amended ewFlat 2 2 10 (fun _ _ => 0) 0 0 0
    (by decide) (by decide) (by decide) (by decide) (by decide) (by decide)

/-! Invariants supporting the region-size, label-range and terminal-cell
claims. -/

/-- Domain invariant of the flood loop: work-list, marked and glob
pixels are in range and carry the appropriate quantized-value bounds. -/
def FDom (H W : Nat) (q : Mark) (bl : Int) (c0 : Coord) (st : FloodState) : Prop :=
  (∀ p ∈ st.as_bin, (p = c0 ∨ bl ≤ q p.1 p.2) ∧ p.1 < H ∧ p.2 < W) ∧
    (∀ p ∈ st.marked_so_far, (p = c0 ∨ bl ≤ q p.1 p.2) ∧ p.1 < H ∧ p.2 < W) ∧
    (∀ p ∈ st.as_glob, 0 ≤ q p.1 p.2 ∧ q p.1 p.2 < bl ∧ p.1 < H ∧ p.2 < W)

theorem floodLoop_FDom {H W : Nat} {q : Mark} {bl cd ci : Int} {c0 : Coord} :
    ∀ (fuel : Nat) (st st2 : FloodState), FDom H W q bl c0 st →
      floodLoop H W q bl cd ci fuel st = some st2 → FDom H W q bl c0 st2 := by
  intro fuel
  induction fuel with
  | zero => intro st st2 _ h; exact absurd h (by simp [floodLoop])
  | succ fuel ih =>
    intro st st2 hinv h
    rw [floodLoop] at h
    rcases hbin : st.as_bin with _ | ⟨p, rest⟩
    · rw [hbin] at h
      dsimp only at h
      cases h
      exact hinv
    · rw [hbin] at h
      dsimp only at h
      have hrest : ∀ p2 ∈ rest, (p2 = c0 ∨ bl ≤ q p2.1 p2.2) ∧ p2.1 < H ∧ p2.2 < W := by
        intro p2 hp2
        exact hinv.1 p2 (hbin ▸ List.mem_cons_of_mem _ hp2)
      by_cases hm : st.marked p.1 p.2 = UNMARKED
      · rw [if_neg (by simpa using hm)] at h
        refine ih _ _ ⟨?_, ?_, ?_⟩ h
        · intro p2 hp2
          rcases scanNbrs_as_bin_mem _ _ _ hp2 with hb | ⟨hw, hq2, _⟩
          · exact hrest _ hb
          · exact ⟨Or.inr hq2, (windowCoords_bounds hw).1, (windowCoords_bounds hw).2⟩
        · intro p2 hp2
          rw [scanNbrs_msf] at hp2
          rcases List.mem_cons.mp hp2 with heq | hmem
          · rw [heq]
            exact hinv.1 p (hbin ▸ List.mem_cons_self _ _)
          · exact hinv.2.1 _ hmem
        · intro p2 hp2
          rcases scanNbrs_as_glob_mem _ _ _ hp2 with hg | ⟨hw, h0, hlt, _⟩
          · exact hinv.2.2 p2 hg
          · exact ⟨h0, hlt, (windowCoords_bounds hw).1, (windowCoords_bounds hw).2⟩
      · rw [if_pos (by simpa using hm)] at h
        exact ih { st with as_bin := rest } st2 ⟨hrest, hinv.2.1, hinv.2.2⟩ h

theorem countv_congr {H W : Nat} {m m2 : Mark} {l : Int}
    (h : ∀ x y, x < H → y < W → (m2 x y = l ↔ m x y = l)) :
    countv H W m2 l = countv H W m l := by
  unfold countv
  congr 1
  apply Finset.filter_congr
  intro c hc
  simp only [Finset.mem_product, Finset.mem_range] at hc
  exact h c.1 c.2 hc.1 hc.2

theorem countv_eq_length {H W : Nat} {m2 : Mark} {ci : Int} {msf : List Coord}
    (hset : ∀ x y, x < H → y < W → (m2 x y = ci ↔ (x, y) ∈ msf))
    (hdom : ∀ p ∈ msf, p.1 < H ∧ p.2 < W) (hnd : msf.Nodup) :
    countv H W m2 ci = msf.length := by
  unfold countv
  have hfe : ((Finset.range H ×ˢ Finset.range W).filter fun c => m2 c.1 c.2 = ci)
      = msf.toFinset := by
    ext c
    simp only [Finset.mem_filter, Finset.mem_product, Finset.mem_range, List.mem_toFinset]
    constructor
    · rintro ⟨⟨h1, h2⟩, h3⟩
      exact (hset c.1 c.2 h1 h2).mp h3
    · intro hmem
      obtain ⟨h1, h2⟩ := hdom c hmem
      exact ⟨⟨h1, h2⟩, (hset c.1 c.2 h1 h2).mpr hmem⟩
  rw [hfe]
  exact List.toFinset_card_of_nodup hnd

theorem countv_zero {H W : Nat} {m : Mark} {l : Int}
    (h : ∀ x y, x < H → y < W → m x y ≠ l) : countv H W m l = 0 := by
  unfold countv
  rw [Finset.card_eq_zero, Finset.filter_eq_empty_iff]
  intro c hc
  simp only [Finset.mem_product, Finset.mem_range] at hc
  exact h c.1 c.2 hc.1 hc.2

/-- Everything the later claims need about one `set_maximum` call: how
the marked grid can change, how per-label pixel counts change, rollback
on deferral, and the shape of new foothill records. -/
theorem set_maximum_master {H W fuel : Nat} {ew : EW} {q m m2 : Mark} {c : Coord}
    {bl ci : Int} {fh fh2 : List (Coord × List Coord)} {cap : Bool}
    (hci : 1 ≤ ci) (hcH : c.1 < H) (hcW : c.2 < W) (hqc : bl ≤ q c.1 c.2)
    (hfresh : ∀ x y, x < H → y < W → m x y < ci)
    (hsm : set_maximum H W fuel ew q m c bl fh ci = some (cap, m2, fh2)) :
    (∀ x y, m2 x y = m x y ∨
        (m2 x y = ci ∧ m x y = UNMARKED ∧ x < H ∧ y < W ∧ bl ≤ q x y)) ∧
      (∀ l : Int, 1 ≤ l → l ≠ ci → countv H W m2 l = countv H W m l) ∧
      (countv H W m2 ci = 0 ∨ min_size < countv H W m2 ci ∨
        ew.max_size ≤ countv H W m2 ci) ∧
      (cap = false → m2 = m) ∧
      (∀ r ∈ fh2, r ∈ fh ∨
        ∀ p ∈ r.2, 0 ≤ q p.1 p.2 ∧ q p.1 p.2 < bl ∧ p.1 < H ∧ p.2 < W) := by
  rcases hfl : floodLoop H W q bl (q c.1 c.2) ci fuel (initFlood m c) with _ | st
  · rw [set_maximum_none hfl] at hsm
    exact absurd hsm (by simp)
  have hne : ci ≠ UNMARKED := by unfold UNMARKED; omega
  have hov : FOv m ci st := floodLoop_FOv hne fuel _ _ (initFlood_FOv m c ci) hfl
  have hdom : FDom H W q bl c st := by
    refine floodLoop_FDom fuel _ _ ⟨?_, ?_, ?_⟩ hfl
    · intro p hp
      simp only [initFlood, List.mem_singleton] at hp
      subst hp
      exact ⟨Or.inl rfl, hcH, hcW⟩
    · intro p hp
      simp [initFlood] at hp
    · intro p hp
      simp [initFlood] at hp
  rw [set_maximum_some hfl] at hsm
  have heq := Option.some.inj hsm
  simp only [Prod.mk.injEq] at heq
  obtain ⟨hcap, hm2, hfh2⟩ := heq
  have hkeep : ∀ x y, st.marked x y = m x y ∨
      (st.marked x y = ci ∧ m x y = UNMARKED ∧ x < H ∧ y < W ∧ bl ≤ q x y) := by
    intro x y
    have hov1 := hov.1 x y
    by_cases hmem : (x, y) ∈ st.marked_so_far
    · rw [if_pos hmem] at hov1
      right
      refine ⟨hov1, hov.2.1 _ hmem, (hdom.2.1 _ hmem).2.1, (hdom.2.1 _ hmem).2.2, ?_⟩
      rcases (hdom.2.1 _ hmem).1 with hceq | hqb
      · subst hceq
        exact hqc
      · exact hqb
    · rw [if_neg hmem] at hov1
      exact Or.inl hov1
  have hroll : rollback st.marked st.marked_so_far = m := rollback_restores hov
  have hcnt : countv H W st.marked ci = st.marked_so_far.length := by
    apply countv_eq_length _ (fun p hp => ⟨(hdom.2.1 p hp).2.1, (hdom.2.1 p hp).2.2⟩)
      hov.2.2
    intro x y hx hy
    have hov1 := hov.1 x y
    constructor
    · intro h4
      by_cases hmem : (x, y) ∈ st.marked_so_far
      · exact hmem
      · rw [if_neg hmem] at hov1
        have := hfresh x y hx hy
        omega
    · intro hmem
      rw [if_pos hmem] at hov1
      exact hov1
  have hA1 : ∀ x y, m2 x y = m x y ∨
      (m2 x y = ci ∧ m x y = UNMARKED ∧ x < H ∧ y < W ∧ bl ≤ q x y) := by
    intro x y
    rw [← hm2]
    split_ifs
    case _ => exact hkeep x y
    all_goals first
      | exact hkeep x y
      | (rw [hroll]; exact Or.inl rfl)
  refine ⟨hA1, ?_, ?_, ?_, ?_⟩
  · intro l hl hlne
    apply countv_congr
    intro x y hx hy
    constructor
    · intro h2
      rcases hA1 x y with he | ⟨hci2, _, _, _, _⟩
      · rw [← he]
        exact h2
      · exact absurd (hci2 ▸ h2) (by exact fun hcon => hlne hcon.symm)
    · intro h2
      rcases hA1 x y with he | ⟨_, hun, _, _, _⟩
      · rw [he]
        exact h2
      · rw [hun] at h2
        exact absurd h2 (by unfold UNMARKED; omega)
  · have hzero : countv H W m ci = 0 := by
      apply countv_zero
      intro x y hx hy
      have := hfresh x y hx hy
      omega
    rw [← hm2]
    by_cases h1 : ew.max_size ≤ st.marked_so_far.length
    · rw [if_pos h1, hcnt]
      exact Or.inr (Or.inr h1)
    · rw [if_neg h1]
      by_cases h2 : st.marked_so_far.length ≤ min_size
      · rw [if_pos h2, hroll]
        exact Or.inl hzero
      · rw [if_neg h2]
        by_cases h3 : (if bl = 0 then false else st.wbca) = true
        · rw [if_pos h3, hroll]
          exact Or.inl hzero
        · rw [if_neg h3, hcnt]
          exact Or.inr (Or.inl (by omega))
  · intro hcapf
    rw [← hcap] at hcapf
    have hbig : ¬ (ew.max_size ≤ st.marked_so_far.length) := by
      intro hle
      rw [decide_eq_true hle] at hcapf
      simp at hcapf
    have hwb : (if bl = 0 then false else st.wbca) = true := by
      rcases hb : (if bl = 0 then false else st.wbca) with _ | _
      · rw [hb] at hcapf
        simp [hbig] at hcapf
      · rfl
    rw [← hm2, if_neg hbig]
    by_cases hsmall : st.marked_so_far.length ≤ min_size
    · rw [if_pos hsmall]
      exact hroll
    · rw [if_neg hsmall, if_pos (by simpa using hwb)]
      exact hroll
  · intro r hr
    rw [← hfh2] at hr
    by_cases h1 : ew.max_size ≤ st.marked_so_far.length
    · rw [if_pos h1] at hr
      rcases List.mem_append.mp hr with hold | hnew
      · exact Or.inl hold
      · right
        have : r = (c, st.as_glob) := by simpa using hnew
        subst this
        intro p hp
        exact hdom.2.2 p hp
    · rw [if_neg h1] at hr
      exact Or.inl hr

theorem hillPushes_mem {q m2 : Mark} {bn nb : Nat} {bl : Int} {centers : Nat → List Coord}
    {c0 pt : Coord} :
    ∀ (cs acc : List Coord) (c : Coord),
      c ∈ hillPushes q m2 bn nb bl centers c0 pt cs acc →
      c ∈ acc ∨ (c ∈ cs ∧ m2 c.1 c.2 = UNMARKED ∧ 0 ≤ q c.1 c.2 ∧ q c.1 c.2 < bl) := by
  intro cs
  induction cs with
  | nil => intro acc c h; exact Or.inl h
  | cons c1 cs ih =>
    intro acc c h
    rw [hillPushes] at h
    by_cases hcond : (m2 c1.1 c1.2 = UNMARKED ∧ 0 ≤ q c1.1 c1.2 ∧ q c1.1 c1.2 < bl ∧
        (q c1.1 c1.2 ≤ q pt.1 pt.2 ∨ is_closest c1 c0 centers bn nb = true))
    · rw [if_pos hcond] at h
      rcases ih _ _ h with hacc | ⟨hcs, hrest⟩
      · rcases List.mem_cons.mp hacc with heq | hacc2
        · rw [heq]
          exact Or.inr ⟨List.mem_cons_self _ _, hcond.1, hcond.2.1, hcond.2.2.1⟩
        · exact Or.inl hacc2
      · exact Or.inr ⟨List.mem_cons_of_mem _ hcs, hrest⟩
    · rw [if_neg hcond] at h
      rcases ih _ _ h with hacc | ⟨hcs, hrest⟩
      · exact Or.inl hacc
      · exact Or.inr ⟨List.mem_cons_of_mem _ hcs, hrest⟩

/-- One foothill flood only turns non-positive cells into `GLOBBED`:
positive (capture-index) cells are never rewritten, because every hill
pixel has quantized value below `bin_lower` while positive cells sit at
or above it. -/
theorem hillsLoop_char {H W : Nat} {q : Mark} {bn nb : Nat} {bl : Int}
    {centers : Nat → List Coord} {c0 : Coord} :
    ∀ (fuel : Nat) (m m2 : Mark) (hills : List Coord),
      (∀ p ∈ hills, q p.1 p.2 < bl) →
      (∀ x y, 1 ≤ m x y → bl ≤ q x y) →
      hillsLoop H W q bn nb bl centers c0 fuel m hills = some m2 →
      ∀ x y, m2 x y = m x y ∨ (m2 x y = GLOBBED ∧ m x y < 1) := by
  intro fuel
  induction fuel with
  | zero => intro m m2 hills _ _ h; exact absurd h (by simp [hillsLoop])
  | succ fuel ih =>
    intro m m2 hills hh hq h
    rcases hills with _ | ⟨pt, rest⟩
    · rw [hillsLoop] at h
      cases h
      intro x y
      exact Or.inl rfl
    · rw [hillsLoop] at h
      have hptlt : m pt.1 pt.2 < 1 := by
        by_contra hge
        push_neg at hge
        have h1 := hq _ _ hge
        have h2 := hh pt (List.mem_cons_self _ _)
        omega
      have hq2 : ∀ x y, 1 ≤ (upd m pt GLOBBED) x y → bl ≤ q x y := by
        intro x y hxy
        rw [upd_apply] at hxy
        by_cases hp : x = pt.1 ∧ y = pt.2
        · rw [if_pos hp] at hxy
          exact absurd hxy (by unfold GLOBBED; omega)
        · rw [if_neg hp] at hxy
          exact hq x y hxy
      have hh2 : ∀ p ∈ hillPushes q (upd m pt GLOBBED) bn nb bl centers c0 pt
          (windowCoords H W pt 1) rest, q p.1 p.2 < bl := by
        intro p hp
        rcases hillPushes_mem _ _ _ hp with hrest | ⟨_, _, _, hlt⟩
        · exact hh p (List.mem_cons_of_mem _ hrest)
        · exact hlt
      have hmain := ih _ _ _ hh2 hq2 h
      intro x y
      rcases hmain x y with he | ⟨hg, hlt⟩
      · rw [he, upd_apply]
        by_cases hp : x = pt.1 ∧ y = pt.2
        · rw [if_pos hp]
          right
          refine ⟨rfl, ?_⟩
          obtain ⟨rfl, rfl⟩ := hp
          exact hptlt
        · rw [if_neg hp]
          exact Or.inl rfl
      · right
        refine ⟨hg, ?_⟩
        rw [upd_apply] at hlt
        by_cases hp : x = pt.1 ∧ y = pt.2
        · obtain ⟨rfl, rfl⟩ := hp
          exact hptlt
        · rw [if_neg hp] at hlt
          exact hlt

/-- `remove_foothills` only turns non-positive cells into `GLOBBED`;
positive cells keep their value. -/
theorem remove_foothills_char {H W fuel : Nat} {q : Mark} {bn nb : Nat} {bl : Int}
    {centers : Nat → List Coord} :
    ∀ (fhs : List (Coord × List Coord)) (m m2 : Mark),
      (∀ r ∈ fhs, ∀ p ∈ r.2, q p.1 p.2 < bl) →
      (∀ x y, 1 ≤ m x y → bl ≤ q x y) →
      remove_foothills H W fuel q bn nb bl centers m fhs = some m2 →
      ∀ x y, m2 x y = m x y ∨ (m2 x y = GLOBBED ∧ m x y < 1) := by
  intro fhs
  induction fhs with
  | nil =>
    intro m m2 _ _ h x y
    cases h
    exact Or.inl rfl
  | cons r rest ih =>
    obtain ⟨c0, cand⟩ := r
    intro m m2 hrec hq h
    rw [remove_foothills] at h
    rcases hloop : hillsLoop H W q bn nb bl centers c0 fuel m cand with _ | m1
    · rw [hloop] at h
      dsimp only at h
      cases h
    · rw [hloop] at h
      dsimp only at h
      have hstep := hillsLoop_char fuel m m1 cand
        (fun p hp => hrec (c0, cand) (List.mem_cons_self _ _) p hp) hq hloop
      have hq1 : ∀ x y, 1 ≤ m1 x y → bl ≤ q x y := by
        intro x y hxy
        rcases hstep x y with he | ⟨hg, _⟩
        · exact hq x y (he ▸ hxy)
        · rw [hg] at hxy
          exact absurd hxy (by unfold GLOBBED; omega)
      have hrest := ih m1 m2 (fun r2 hr2 => hrec r2 (List.mem_cons_of_mem _ hr2)) hq1 h
      intro x y
      rcases hrest x y with he2 | ⟨hg2, hlt2⟩
      · rcases hstep x y with he1 | ⟨hg1, hlt1⟩
        · exact Or.inl (he2.trans he1)
        · exact Or.inr ⟨he2.trans hg1, hlt1⟩
      · right
        refine ⟨hg2, ?_⟩
        rcases hstep x y with he1 | ⟨_, hlt1⟩
        · exact he1 ▸ hlt2
        · exact hlt1

theorem clamp_idem (bl : Int) :
    (if (if bl < 0 then 0 else bl) < 0 then 0 else (if bl < 0 then 0 else bl))
      = (if bl < 0 then 0 else bl) := by
  split_ifs <;> omega

/-- Everything the later claims need about the per-level seed loop of
`grow_centers`: capture indices only grow, cells change only from
`UNMARKED` to a fresh capture index at or above the clamped
`bin_lower`, committed label counts are preserved and respect the size
policy, foothill records hold only below-`bin_lower` pixels, deferred
seeds come from the seed list, and the clamped `bin_lower` is handed to
the foothill resolver. -/
theorem seedLoop_master {H W fuel : Nat} {ew : EW} {q : Mark} :
    ∀ (seeds : List Coord) (bl : Int) (m : Mark) (ci : Int)
      (fh : List (Coord × List Coord)) (dq : List Coord) (m2 : Mark) (ci2 : Int)
      (fh2 : List (Coord × List Coord)) (dq2 : List Coord) (bl2 : Int),
      1 ≤ ci →
      (∀ s ∈ seeds, s.1 < H ∧ s.2 < W ∧ (if bl < 0 then 0 else bl) ≤ q s.1 s.2) →
      (∀ x y, x < H → y < W → m x y < ci) →
      seedLoop H W fuel ew q seeds bl m ci fh dq = some (m2, ci2, fh2, dq2, bl2) →
      (ci ≤ ci2 ∧
        (∀ x y, m2 x y = m x y ∨
          (ci ≤ m2 x y ∧ m2 x y < ci2 ∧ m x y = UNMARKED ∧ x < H ∧ y < W ∧
            (if bl < 0 then 0 else bl) ≤ q x y)) ∧
        (∀ l : Int, 1 ≤ l → l < ci → countv H W m2 l = countv H W m l) ∧
        (∀ l : Int, ci ≤ l → l < ci2 → countv H W m2 l = 0 ∨
          min_size < countv H W m2 l ∨ ew.max_size ≤ countv H W m2 l) ∧
        (∀ x y, x < H → y < W → m2 x y < ci2) ∧
        (∀ r ∈ fh2, r ∈ fh ∨ ∀ p ∈ r.2, 0 ≤ q p.1 p.2 ∧
          q p.1 p.2 < (if bl < 0 then 0 else bl) ∧ p.1 < H ∧ p.2 < W) ∧
        (∀ s ∈ dq2, s ∈ dq ∨ s ∈ seeds) ∧
        (seeds = [] → bl2 = bl) ∧
        (seeds ≠ [] → bl2 = (if bl < 0 then 0 else bl))) := by
  intro seeds
  induction seeds with
  | nil =>
    intro bl m ci fh dq m2 ci2 fh2 dq2 bl2 hci _ _ h
    obtain ⟨rfl, rfl, rfl, rfl, rfl⟩ :
        m = m2 ∧ ci = ci2 ∧ fh = fh2 ∧ dq = dq2 ∧ bl = bl2 := by
      rw [seedLoop] at h
      have := Option.some.inj h
      simp only [Prod.mk.injEq] at this
      exact ⟨this.1, this.2.1, this.2.2.1, this.2.2.2.1, this.2.2.2.2⟩
    refine ⟨le_refl _, fun x y => Or.inl rfl, fun l _ _ => rfl, fun l h1 h2 => by omega,
      fun x y hx hy => by exact (by assumption : ∀ x y, x < H → y < W → m x y < ci) x y hx hy,
      fun r hr => Or.inl hr, fun s hs => Or.inl hs, fun _ => rfl, fun hne => absurd rfl hne⟩
  | cons c rest ih =>
    intro bl m ci fh dq m2 ci2 fh2 dq2 bl2 hci hseeds hfresh h
    simp only [seedLoop] at h
    have hcprop := hseeds c (List.mem_cons_self _ _)
    have hrestprop : ∀ s ∈ rest, s.1 < H ∧ s.2 < W ∧
        (if (if bl < 0 then 0 else bl) < 0 then 0 else (if bl < 0 then 0 else bl))
          ≤ q s.1 s.2 := by
      intro s hs
      rw [clamp_idem]
      exact hseeds s (List.mem_cons_of_mem _ hs)
    by_cases hm : m c.1 c.2 = UNMARKED
    · rw [if_pos hm] at h
      rcases hsm : set_maximum H W fuel ew q m c (if bl < 0 then 0 else bl) fh ci
        with _ | ⟨captured, mS, fhS⟩
      · rw [hsm] at h
        exact absurd h (by simp)
      · rw [hsm] at h
        dsimp only at h
        obtain ⟨hA1, hA2, hA3, hA4, hA5⟩ := set_maximum_master hci hcprop.1 hcprop.2.1
          hcprop.2.2 hfresh hsm
        cases captured with
        | true =>
          rw [if_pos rfl] at h
          have hfreshS : ∀ x y, x < H → y < W → mS x y < ci + 1 := by
            intro x y hx hy
            rcases hA1 x y with he | ⟨he, _⟩
            · have := hfresh x y hx hy
              omega
            · omega
          obtain ⟨hI0, hI1, hI2, hI3, hI4, hI5, hI6, hI7, hI8⟩ :=
            ih (if bl < 0 then 0 else bl) mS (ci + 1) fhS dq m2 ci2 fh2 dq2 bl2
              (by omega) hrestprop hfreshS h
          refine ⟨by omega, ?_, ?_, ?_, hI4, ?_, ?_, ?_, ?_⟩
          · intro x y
            rcases hI1 x y with he | ⟨hge, hlt, hun, hx, hy, hq2⟩
            · rw [he]
              rcases hA1 x y with he2 | ⟨hec, hun2, hx2, hy2, hq3⟩
              · exact Or.inl he2
              · exact Or.inr ⟨by omega, by omega, hun2, hx2, hy2, hq3⟩
            · rcases hA1 x y with he2 | ⟨hec, hun2, _, _, _⟩
              · rw [← he2]
                rw [clamp_idem] at hq2
                exact Or.inr ⟨by omega, hlt, he2 ▸ hun, hx, hy, hq2⟩
              · rw [hec] at hun
                exact absurd hun (by unfold UNMARKED; omega)
          · intro l hl hlt
            rw [hI2 l hl (by omega), hA2 l hl (by omega)]
          · intro l hge hlt
            by_cases hlc : l = ci
            · subst hlc
              rw [hI2 l hci (by omega)]
              exact hA3
            · exact hI3 l (by omega) hlt
          · intro r hr
            rcases hI5 r hr with hrS | hprop
            · rcases hA5 r hrS with hold | hprop2
              · exact Or.inl hold
              · exact Or.inr hprop2
            · rw [clamp_idem] at hprop
              exact Or.inr hprop
          · intro s hs
            rcases hI6 s hs with hd | hr
            · exact Or.inl hd
            · exact Or.inr (List.mem_cons_of_mem _ hr)
          · intro habs
            exact absurd habs (by simp)
          · intro _
            by_cases hrest : rest = []
            · rw [hI7 hrest]
            · rw [hI8 hrest, clamp_idem]
        | false =>
          rw [if_neg (by simp)] at h
          have hmeq : mS = m := hA4 rfl
          subst hmeq
          obtain ⟨hI0, hI1, hI2, hI3, hI4, hI5, hI6, hI7, hI8⟩ :=
            ih (if bl < 0 then 0 else bl) mS ci fhS (dq ++ [c]) m2 ci2 fh2 dq2 bl2
              hci hrestprop hfresh h
          refine ⟨hI0, ?_, ?_, hI3, hI4, ?_, ?_, ?_, ?_⟩
          · intro x y
            rcases hI1 x y with he | ⟨hge, hlt, hun, hx, hy, hq2⟩
            · exact Or.inl he
            · rw [clamp_idem] at hq2
              exact Or.inr ⟨hge, hlt, hun, hx, hy, hq2⟩
          · exact hI2
          · intro r hr
            rcases hI5 r hr with hrS | hprop
            · rcases hA5 r hrS with hold | hprop2
              · exact Or.inl hold
              · exact Or.inr hprop2
            · rw [clamp_idem] at hprop
              exact Or.inr hprop
          · intro s hs
            rcases hI6 s hs with hd | hr
            · rcases List.mem_append.mp hd with hd2 | hc2
              · exact Or.inl hd2
              · have : s = c := by simpa using hc2
                exact Or.inr (this ▸ List.mem_cons_self _ _)
            · exact Or.inr (List.mem_cons_of_mem _ hr)
          · intro habs
            exact absurd habs (by simp)
          · intro _
            by_cases hrest : rest = []
            · rw [hI7 hrest]
            · rw [hI8 hrest, clamp_idem]
    · rw [if_neg hm] at h
      obtain ⟨hI0, hI1, hI2, hI3, hI4, hI5, hI6, hI7, hI8⟩ :=
        ih (if bl < 0 then 0 else bl) m ci fh dq m2 ci2 fh2 dq2 bl2
          hci hrestprop hfresh h
      refine ⟨hI0, ?_, hI2, hI3, hI4, ?_, ?_, ?_, ?_⟩
      · intro x y
        rcases hI1 x y with he | ⟨hge, hlt, hun, hx, hy, hq2⟩
        · exact Or.inl he
        · rw [clamp_idem] at hq2
          exact Or.inr ⟨hge, hlt, hun, hx, hy, hq2⟩
      · intro r hr
        rcases hI5 r hr with hold | hprop
        · exact Or.inl hold
        · rw [clamp_idem] at hprop
          exact Or.inr hprop
      · intro s hs
        rcases hI6 s hs with hd | hr
        · exact Or.inl hd
        · exact Or.inr (List.mem_cons_of_mem _ hr)
      · intro habs
        exact absurd habs (by simp)
      · intro _
        by_cases hrest : rest = []
        · rw [hI7 hrest]
        · rw [hI8 hrest, clamp_idem]

theorem countv_pos_congr_of_char {H W : Nat} {mS mF : Mark} {l : Int} (hl : 1 ≤ l)
    (hchar : ∀ x y, mF x y = mS x y ∨ (mF x y = GLOBBED ∧ mS x y < 1)) :
    countv H W mF l = countv H W mS l := by
  apply countv_congr
  intro x y _ _
  constructor
  · intro h2
    rcases hchar x y with he | ⟨hg, _⟩
    · rw [← he]
      exact h2
    · rw [h2] at hg
      exact absurd hg (by unfold GLOBBED; omega)
  · intro h2
    rcases hchar x y with he | ⟨_, hlt⟩
    · rw [he]
      exact h2
    · rw [h2] at hlt
      exact absurd hlt (by omega)

theorem range_reverse_succ (k : Nat) :
    (List.range (k + 1)).reverse = k :: (List.range k).reverse := by
  rw [List.range_succ, List.reverse_append]
  rfl

/-- Everything the later claims need about the bin-level loop of
`grow_centers`, processing levels `k-1` down to `0`: capture indices
only grow; cells change only from `UNMARKED` to `GLOBBED` or to a fresh
capture index; committed `GLOBBED` and capture-index cells never change
value again; committed label counts are preserved and obey the size
policy; all cells stay below the final capture index. -/
theorem levelLoop_master {H W fuel : Nat} {ew : EW} {q : Mark}
    {centers : Nat → List Coord}
    (hcen : ∀ b p, p ∈ centers b → p.1 < H ∧ p.2 < W ∧ q p.1 p.2 = (b : Int)) :
    ∀ (k : Nat) (m : Mark) (ci : Int) (deferred : List Coord) (m2 : Mark) (ci2 : Int),
      1 ≤ ci →
      (∀ s ∈ deferred, s.1 < H ∧ s.2 < W ∧ (k : Int) - 1 ≤ q s.1 s.2) →
      (∀ x y, x < H → y < W → m x y < ci) →
      (∀ x y, 1 ≤ m x y → (k : Int) - 1 ≤ q x y) →
      levelLoop H W fuel ew q centers (List.range k).reverse m ci deferred
        = some (m2, ci2) →
      (ci ≤ ci2 ∧
        (∀ x y, m2 x y = m x y ∨ m2 x y = GLOBBED ∨
          (ci ≤ m2 x y ∧ m2 x y < ci2 ∧ x < H ∧ y < W)) ∧
        (∀ x y, (m x y = GLOBBED ∨ 1 ≤ m x y) → m2 x y = m x y) ∧
        (∀ l : Int, 1 ≤ l → l < ci → countv H W m2 l = countv H W m l) ∧
        (∀ l : Int, ci ≤ l → l < ci2 → countv H W m2 l = 0 ∨
          min_size < countv H W m2 l ∨ ew.max_size ≤ countv H W m2 l) ∧
        (∀ x y, x < H → y < W → m2 x y < ci2)) := by
  intro k
  induction k with
  | zero =>
    intro m ci deferred m2 ci2 hci hdq hfresh hpos h
    simp only [List.range_zero, List.reverse_nil, levelLoop] at h
    obtain ⟨rfl, rfl⟩ : m = m2 ∧ ci = ci2 := by
      have := Option.some.inj h
      simp only [Prod.mk.injEq] at this
      exact this
    exact ⟨le_refl _, fun x y => Or.inl rfl, fun x y _ => rfl, fun l _ _ => rfl,
      fun l h1 h2 => by omega, hfresh⟩
  | succ k ih =>
    intro m ci deferred m2 ci2 hci hdq hfresh hpos h
    rw [range_reverse_succ, levelLoop] at h
    rcases hseed : seedLoop H W fuel ew q (deferred ++ centers k) ((k : Int) - 1) m ci [] []
      with _ | ⟨mS, ciS, fhS, dqS, blS⟩
    · rw [hseed] at h
      exact absurd h (by simp)
    rw [hseed] at h
    dsimp only at h
    have hclamp_le : ((if (k : Int) - 1 < 0 then 0 else (k : Int) - 1) : Int) ≤ (k : Int) := by
      split_ifs <;> omega
    have hclamp_ge : ((k : Int) - 1) ≤ (if (k : Int) - 1 < 0 then 0 else (k : Int) - 1) := by
      split_ifs <;> omega
    have hseeds_prop : ∀ s ∈ deferred ++ centers k, s.1 < H ∧ s.2 < W ∧
        (if (k : Int) - 1 < 0 then 0 else (k : Int) - 1) ≤ q s.1 s.2 := by
      intro s hs
      rcases List.mem_append.mp hs with hd | hcn
      · obtain ⟨h1, h2, h3⟩ := hdq s hd
        refine ⟨h1, h2, ?_⟩
        split_ifs <;> omega
      · obtain ⟨h1, h2, h3⟩ := hcen k s hcn
        refine ⟨h1, h2, ?_⟩
        rw [h3]
        split_ifs <;> omega
    obtain ⟨hS0, hS1, hS2, hS3, hS4, hS5, hS6, hS7, hS8⟩ :=
      seedLoop_master _ _ _ _ _ _ _ _ _ _ _ hci hseeds_prop hfresh hseed
    rcases hrf : remove_foothills H W fuel q k ew.binCount blS centers mS fhS
      with _ | mF
    · rw [hrf] at h
      exact absurd h (by simp)
    rw [hrf] at h
    dsimp only at h
    have hblS_le : blS ≤ (if (k : Int) - 1 < 0 then 0 else (k : Int) - 1) := by
      by_cases hse : deferred ++ centers k = []
      · rw [hS7 hse]
        exact hclamp_ge
      · rw [hS8 hse]
    have hfh_q : ∀ r ∈ fhS, ∀ p ∈ r.2, q p.1 p.2 < blS := by
      intro r hr p hp
      rcases hS5 r hr with habs | hprop
      · exact absurd habs (List.not_mem_nil _)
      · by_cases hse : deferred ++ centers k = []
        · have hfhnil : fhS = [] := by
            rw [hse] at hseed
            rw [seedLoop] at hseed
            have := Option.some.inj hseed
            simp only [Prod.mk.injEq] at this
            exact this.2.2.1.symm
          rw [hfhnil] at hr
          exact absurd hr (List.not_mem_nil _)
        · rw [hS8 hse]
          exact (hprop p hp).2.1
    have hble2 : blS ≤ (k : Int) := le_trans hblS_le hclamp_le
    have hposS : ∀ x y, 1 ≤ mS x y → blS ≤ q x y := by
      intro x y hxy
      rcases hS1 x y with he | ⟨_, _, _, _, _, hq2⟩
      · have h5 := hpos x y (he ▸ hxy)
        omega
      · exact le_trans hblS_le hq2
    have hhills := remove_foothills_char fhS mS mF hfh_q hposS hrf
    have hfreshF : ∀ x y, x < H → y < W → mF x y < ciS := by
      intro x y hx hy
      rcases hhills x y with he | ⟨hg, _⟩
      · rw [he]
        exact hS4 x y hx hy
      · rw [hg]
        unfold GLOBBED
        omega
    have hdqS_prop : ∀ s ∈ dqS, s.1 < H ∧ s.2 < W ∧ (k : Int) - 1 ≤ q s.1 s.2 := by
      intro s hs
      rcases hS6 s hs with habs | hmem
      · exact absurd habs (List.not_mem_nil _)
      · obtain ⟨h1, h2, h3⟩ := hseeds_prop s hmem
        exact ⟨h1, h2, le_trans hclamp_ge h3⟩
    have hposF : ∀ x y, 1 ≤ mF x y → (k : Int) - 1 ≤ q x y := by
      intro x y hxy
      rcases hhills x y with he | ⟨hg, _⟩
      · rw [he] at hxy
        rcases hS1 x y with he2 | ⟨_, _, _, _, _, hq2⟩
        · have h5 := hpos x y (he2 ▸ hxy)
          omega
        · exact le_trans hclamp_ge hq2
      · rw [hg] at hxy
        exact absurd hxy (by unfold GLOBBED; omega)
    obtain ⟨hL0, hL1, hL2, hL3, hL4, hL5⟩ :=
      ih mF ciS dqS m2 ci2 (by omega) hdqS_prop hfreshF hposF h
    refine ⟨by omega, ?_, ?_, ?_, ?_, hL5⟩
    · intro x y
      rcases hL1 x y with he | hg | ⟨hge, hlt, hx, hy⟩
      · rw [he]
        rcases hhills x y with he2 | ⟨hg2, _⟩
        · rw [he2]
          rcases hS1 x y with he3 | ⟨hge3, hlt3, _, hx3, hy3, _⟩
          · exact Or.inl he3
          · exact Or.inr (Or.inr ⟨hge3, by omega, hx3, hy3⟩)
        · exact Or.inr (Or.inl hg2)
      · exact Or.inr (Or.inl hg)
      · exact Or.inr (Or.inr ⟨by omega, hlt, hx, hy⟩)
    · intro x y hcom
      have hSe : mS x y = m x y := by
        rcases hS1 x y with he | ⟨_, _, hun, _, _, _⟩
        · exact he
        · rcases hcom with hg | hp
          · rw [hg] at hun
            exact absurd hun (by unfold GLOBBED UNMARKED; omega)
          · rw [hun] at hp
            exact absurd hp (by unfold UNMARKED; omega)
      have hFe : mF x y = m x y := by
        rcases hhills x y with he | ⟨hg, hlt⟩
        · rw [he, hSe]
        · rcases hcom with hgm | hp
          · rw [hg, hgm]
          · rw [hSe] at hlt
            omega
      have hcomF : mF x y = GLOBBED ∨ 1 ≤ mF x y := by
        rw [hFe]
        exact hcom
      rw [hL2 x y hcomF, hFe]
    · intro l hl hlt
      rw [hL3 l hl (by omega), countv_pos_congr_of_char hl hhills, hS2 l hl hlt]
    · intro l hge hlt
      by_cases hlS : l < ciS
      · rw [hL3 l (by omega) hlS, countv_pos_congr_of_char (by omega) hhills]
        exact hS3 l hge hlS
      · exact hL4 l (by omega) hlt

/-- Centers produced by the pipeline are in-range pixels whose quantized
value is exactly their bin. -/
theorem centers_spec {H W : Nat} {ew : EW} {q : Mark} {b : Nat} {p : Coord}
    (hp : p ∈ find_local_maxima H W ew (pixelsOf H W q) b) :
    p.1 < H ∧ p.2 < W ∧ q p.1 p.2 = (b : Int) := by
  unfold find_local_maxima at hp
  rcases flm_bins_mem _ _ _ hp with hnil | ⟨hmem, _⟩
  · exact absurd hnil (List.not_mem_nil _)
  · exact mem_pixelsOf.mp hmem

/-- The label-range, cell-kind and label-count facts about a whole
`grow_centers` run, starting from the all-`UNMARKED` grid. -/
theorem grow_centers_master {H W fuel : Nat} {ew : EW} {q : Mark}
    {centers : Nat → List Coord} {m2 : Mark} {ci2 : Int}
    (hcen : ∀ b p, p ∈ centers b → p.1 < H ∧ p.2 < W ∧ q p.1 p.2 = (b : Int))
    (h : grow_centers H W fuel ew centers q = some (m2, ci2)) :
    (1 ≤ ci2 ∧
      (∀ x y, m2 x y = UNMARKED ∨ m2 x y = GLOBBED ∨
        (1 ≤ m2 x y ∧ m2 x y < ci2 ∧ x < H ∧ y < W)) ∧
      (∀ l : Int, 1 ≤ l → l < ci2 → countv H W m2 l = 0 ∨
        min_size < countv H W m2 l ∨ ew.max_size ≤ countv H W m2 l) ∧
      (∀ x y, x < H → y < W → m2 x y < ci2)) := by
  unfold grow_centers at h
  obtain ⟨hL0, hL1, hL2, hL3, hL4, hL5⟩ :=
    levelLoop_master hcen ew.binCount (fun _ _ => UNMARKED) 1 [] m2 ci2 (le_refl _)
      (by simp) (fun x y _ _ => show (-1 : Int) < 1 by omega)
      (fun x y hxy => absurd (show (1 : Int) ≤ -1 from hxy) (by omega)) h
  refine ⟨hL0, ?_, hL4, hL5⟩
  intro x y
  rcases hL1 x y with he | hg | ⟨hge, hlt, hx, hy⟩
  · exact Or.inl he
  · exact Or.inr (Or.inl hg)
  · exact Or.inr (Or.inr ⟨hge, hlt, hx, hy⟩)

/-! Claim C9 — the TOO_SMALL sentinel is never assigned. -/

/-- Claim C9: no operation of the labeler ever writes the `TOOSMALL`
sentinel (-4) into any cell: even with `only_objects = False`, every
output cell is `UNMARKED`, `GLOBBED`, or a positive capture index, so
`TOOSMALL` never appears. -/
theorem C9_toosmall_never_assigned (ew : EW) (H W fuel : Nat) (g : Mark)
    (oo : Bool) (i j : Nat) (v : Int)
    (hv : (label ew H W fuel g oo).map (fun m => m i j) = some v) :
    v ≠ TOOSMALL := by
  simp only [label] at hv
  rcases hgc : grow_centers H W fuel ew
      (find_local_maxima H W ew (pixelsOf H W (quantizeData ew g)))
      (quantizeData ew g) with _ | ⟨m, ci⟩
  · rw [hgc] at hv
    simp at hv
  · rw [hgc] at hv
    simp only [Option.map_some'] at hv
    have hchar := (grow_centers_master (fun b p hp => centers_spec hp) hgc).2.1
    have hval := Option.some.inj hv
    cases oo with
    | true =>
      have hval2 : (if 0 < m i j then m i j else 0) = v := hval
      rw [← hval2]
      by_cases h0 : 0 < m i j
      · rw [if_pos h0]
        intro hcon
        rw [hcon] at h0
        revert h0
        unfold TOOSMALL
        omega
      · rw [if_neg h0]
        unfold TOOSMALL
        omega
    | false =>
      have hval2 : m i j = v := hval
      rcases hchar i j with he | hg | ⟨hge, _, _, _⟩
      · rw [← hval2, he]
        unfold UNMARKED TOOSMALL
        omega
      · rw [← hval2, hg]
        unfold GLOBBED TOOSMALL
        omega
      · rw [← hval2]
        intro hcon
        rw [hcon] at hge
        revert hge
        unfold TOOSMALL
        omega

/-- Witness for C9 at a concrete run with `only_objects = False`. -/
theorem C9_toosmall_never_assigned_witness : (1 : Int) ≠ TOOSMALL :=
  C9_toosmall_never_assigned ewFlat 3 3 100 gFlat false 1 1 1 (by decide)

/-! Claim C3 — label positivity and density. -/

theorem sliceIdx_length_le (n x : Nat) :
    (sliceIdx n ((x : Int) - 1) ((x : Int) + 1 + 1)).length ≤ 3 := by
  simp only [sliceIdx, List.length_range']
  split_ifs <;> omega

theorem flatMap_pairs_length (cols : List Nat) :
    ∀ rows : List Nat,
      (rows.flatMap (fun i => cols.map (fun j => ((i, j) : Coord)))).length
        = rows.length * cols.length := by
  intro rows
  induction rows with
  | nil => simp
  | cons r rows ih =>
    simp only [List.flatMap_cons, List.length_append, List.length_map, List.length_cons, ih]
    ring

theorem windowCoords_length_le (H W : Nat) (p : Coord) :
    (windowCoords H W p 1).length ≤ 9 := by
  unfold windowCoords
  rw [flatMap_pairs_length]
  have h1 := sliceIdx_length_le H p.1
  have h2 := sliceIdx_length_le W p.2
  calc (sliceIdx H ((p.1 : Int) - 1) ((p.1 : Int) + 1 + 1)).length *
        (sliceIdx W ((p.2 : Int) - 1) ((p.2 : Int) + 1 + 1)).length ≤ 3 * 3 :=
        Nat.mul_le_mul h1 h2
    _ = 9 := rfl

theorem scanNbrs_as_bin_len {q : Mark} {bl cd : Int} :
    ∀ (cs : List Coord) (st : FloodState),
      (scanNbrs q bl cd cs st).as_bin.length ≤ cs.length + st.as_bin.length := by
  intro cs
  induction cs with
  | nil => intro st; simp [scanNbrs]
  | cons c cs ih =>
    intro st
    rw [scanNbrs]
    by_cases hm : st.marked c.1 c.2 = UNMARKED
    · rw [if_pos hm]
      split_ifs
      · refine le_trans (ih _) ?_
        simp only [List.length_cons]
        omega
      · refine le_trans (ih _) ?_
        simp only [List.length_cons]
        omega
      · refine le_trans (ih _) ?_
        simp only [List.length_cons]
        omega
    · rw [if_neg hm]
      have := ih st
      simp only [List.length_cons]
      omega

theorem countv_upd_lt {H W : Nat} {m : Mark} {p : Coord} {ci : Int}
    (hp1 : p.1 < H) (hp2 : p.2 < W) (hm : m p.1 p.2 = UNMARKED) (hci : ci ≠ UNMARKED) :
    countv H W (upd m p ci) UNMARKED < countv H W m UNMARKED := by
  unfold countv
  apply Finset.card_lt_card
  rw [Finset.ssubset_iff_of_subset]
  · refine ⟨(p.1, p.2), ?_, ?_⟩
    · simp only [Finset.mem_filter, Finset.mem_product, Finset.mem_range]
      exact ⟨⟨hp1, hp2⟩, hm⟩
    · simp only [Finset.mem_filter, Finset.mem_product, Finset.mem_range, not_and]
      intro _
      rw [upd_apply, if_pos ⟨rfl, rfl⟩]
      exact hci
  · intro c hc
    simp only [Finset.mem_filter, Finset.mem_product, Finset.mem_range] at hc ⊢
    refine ⟨hc.1, ?_⟩
    have hc2 := hc.2
    rw [upd_apply] at hc2
    by_cases hxy : c.1 = p.1 ∧ c.2 = p.2
    · rw [if_pos hxy] at hc2
      exact absurd hc2 hci
    · rw [if_neg hxy] at hc2
      exact hc2

theorem countv_upd_stale {H W : Nat} {m : Mark} {p : Coord}
    (hm : m p.1 p.2 ≠ UNMARKED) :
    countv H W (upd m p GLOBBED) UNMARKED = countv H W m UNMARKED := by
  apply countv_congr
  intro x y _ _
  rw [upd_apply]
  by_cases hxy : x = p.1 ∧ y = p.2
  · rw [if_pos hxy]
    obtain ⟨rfl, rfl⟩ := hxy
    constructor
    · intro hg
      exact absurd hg (by unfold GLOBBED UNMARKED; omega)
    · intro hu
      exact absurd hu hm
  · rw [if_neg hxy]

theorem floodLoop_mono {H W : Nat} {q : Mark} {bl cd ci : Int} :
    ∀ (f1 f2 : Nat) (st st2 : FloodState), f1 ≤ f2 →
      floodLoop H W q bl cd ci f1 st = some st2 →
      floodLoop H W q bl cd ci f2 st = some st2 := by
  intro f1
  induction f1 with
  | zero => intro f2 st st2 _ h; exact absurd h (by simp [floodLoop])
  | succ f1 ih =>
    intro f2 st st2 hle h
    obtain ⟨f3, rfl⟩ : ∃ f3, f2 = f3 + 1 := ⟨f2 - 1, by omega⟩
    rw [floodLoop] at h ⊢
    rcases hbin : st.as_bin with _ | ⟨p, rest⟩
    · rw [hbin] at h
      exact h
    · rw [hbin] at h
      dsimp only at h
      dsimp only
      by_cases hm : st.marked p.1 p.2 = UNMARKED
      · rw [if_neg (by simpa using hm)] at h ⊢
        exact ih _ _ _ (by omega) h
      · rw [if_pos (by simpa using hm)] at h ⊢
        exact ih _ _ _ (by omega) h

theorem floodLoop_term {H W : Nat} {q : Mark} {bl cd ci : Int} (hci : ci ≠ UNMARKED) :
    ∀ (n : Nat) (st : FloodState),
      (∀ p ∈ st.as_bin, p.1 < H ∧ p.2 < W) →
      st.as_bin.length + 10 * countv H W st.marked UNMARKED ≤ n →
      ∃ st2, floodLoop H W q bl cd ci (n + 1) st = some st2 := by
  intro n
  induction n with
  | zero =>
    intro st hb hm
    have hnil : st.as_bin = [] := List.eq_nil_of_length_eq_zero (by omega)
    rw [floodLoop, hnil]
    exact ⟨st, rfl⟩
  | succ n ih =>
    intro st hb hm
    rcases hbin : st.as_bin with _ | ⟨p, rest⟩
    · rw [floodLoop, hbin]
      exact ⟨st, rfl⟩
    · rw [floodLoop, hbin]
      dsimp only
      have hbl : st.as_bin.length = rest.length + 1 := by rw [hbin]; rfl
      by_cases hmk : st.marked p.1 p.2 = UNMARKED
      · rw [if_neg (by simpa using hmk)]
        apply ih
        · intro p2 hp2
          rcases scanNbrs_as_bin_mem _ _ _ hp2 with hr | ⟨hw, _, _⟩
          · exact hb p2 (hbin ▸ List.mem_cons_of_mem _ hr)
          · exact windowCoords_bounds hw
        · have hlen := @scanNbrs_as_bin_len q bl cd
            (windowCoords H W p 1)
            { marked := upd st.marked p ci, as_bin := rest, as_glob := st.as_glob,
              marked_so_far := p :: st.marked_so_far, wbca := st.wbca }
          have hlen2 : (scanNbrs q bl cd (windowCoords H W p 1)
              { marked := upd st.marked p ci, as_bin := rest, as_glob := st.as_glob,
                marked_so_far := p :: st.marked_so_far,
                wbca := st.wbca }).as_bin.length
              ≤ (windowCoords H W p 1).length + rest.length := hlen
          have hwl := windowCoords_length_le H W p
          have hcv : countv H W (upd st.marked p ci) UNMARKED
              < countv H W st.marked UNMARKED :=
            countv_upd_lt (hb p (hbin ▸ List.mem_cons_self _ _)).1
              (hb p (hbin ▸ List.mem_cons_self _ _)).2 hmk hci
          rw [scanNbrs_marked]
          show (scanNbrs q bl cd (windowCoords H W p 1)
              { marked := upd st.marked p ci, as_bin := rest, as_glob := st.as_glob,
                marked_so_far := p :: st.marked_so_far,
                wbca := st.wbca }).as_bin.length
              + 10 * countv H W (upd st.marked p ci) UNMARKED ≤ n
          omega
      · rw [if_pos (by simpa using hmk)]
        apply ih
        · intro p2 hp2
          exact hb p2 (hbin ▸ List.mem_cons_of_mem _ hp2)
        · show rest.length + 10 * countv H W st.marked UNMARKED ≤ n
          omega

theorem countv_pos_of {H W : Nat} {m : Mark} {p : Coord} {v : Int}
    (h1 : p.1 < H) (h2 : p.2 < W) (hm : m p.1 p.2 = v) : 0 < countv H W m v := by
  unfold countv
  apply Finset.card_pos.mpr
  refine ⟨(p.1, p.2), ?_⟩
  simp only [Finset.mem_filter, Finset.mem_product, Finset.mem_range]
  exact ⟨⟨h1, h2⟩, hm⟩

theorem hillPushes_shape {q m2 : Mark} {bn nb : Nat} {bl : Int} {centers : Nat → List Coord}
    {c0 pt : Coord} :
    ∀ (cs acc : List Coord), ∃ P : List Coord,
      hillPushes q m2 bn nb bl centers c0 pt cs acc = P ++ acc ∧
      ∀ c ∈ P, c ∈ cs ∧ m2 c.1 c.2 = UNMARKED := by
  intro cs
  induction cs with
  | nil => intro acc; exact ⟨[], rfl, by simp⟩
  | cons c1 cs ih =>
    intro acc
    rw [hillPushes]
    by_cases hcond : (m2 c1.1 c1.2 = UNMARKED ∧ 0 ≤ q c1.1 c1.2 ∧ q c1.1 c1.2 < bl ∧
        (q c1.1 c1.2 ≤ q pt.1 pt.2 ∨ is_closest c1 c0 centers bn nb = true))
    · rw [if_pos hcond]
      obtain ⟨P, hP, hmem⟩ := ih (c1 :: acc)
      refine ⟨P ++ [c1], by rw [hP]; simp, ?_⟩
      intro c hc
      rcases List.mem_append.mp hc with h1 | h2
      · obtain ⟨h3, h4⟩ := hmem c h1
        exact ⟨List.mem_cons_of_mem _ h3, h4⟩
      · rw [List.mem_singleton.mp h2]
        exact ⟨List.mem_cons_self _ _, hcond.1⟩
    · rw [if_neg hcond]
      obtain ⟨P, hP, hmem⟩ := ih acc
      refine ⟨P, hP, ?_⟩
      intro c hc
      obtain ⟨h3, h4⟩ := hmem c hc
      exact ⟨List.mem_cons_of_mem _ h3, h4⟩

theorem hillsLoop_mono {H W : Nat} {q : Mark} {bn nb : Nat} {bl : Int}
    {centers : Nat → List Coord} {c0 : Coord} :
    ∀ (f1 f2 : Nat) (m m2 : Mark) (hills : List Coord), f1 ≤ f2 →
      hillsLoop H W q bn nb bl centers c0 f1 m hills = some m2 →
      hillsLoop H W q bn nb bl centers c0 f2 m hills = some m2 := by
  intro f1
  induction f1 with
  | zero => intro f2 m m2 hills _ h; exact absurd h (by simp [hillsLoop])
  | succ f1 ih =>
    intro f2 m m2 hills hle h
    obtain ⟨f3, rfl⟩ : ∃ f3, f2 = f3 + 1 := ⟨f2 - 1, by omega⟩
    rcases hills with _ | ⟨pt, rest⟩
    · rw [hillsLoop] at h ⊢
      exact h
    · rw [hillsLoop] at h ⊢
      exact ih _ _ _ _ (by omega) h

theorem hillsLoop_term {H W : Nat} {q : Mark} {bn nb : Nat} {bl : Int}
    {centers : Nat → List Coord} {c0 : Coord} :
    ∀ (n1 n2 : Nat) (m : Mark) (hills : List Coord),
      countv H W m UNMARKED ≤ n1 → hills.length ≤ n2 →
      (∀ p ∈ hills, p.1 < H ∧ p.2 < W) →
      ∃ (fuel : Nat) (m2 : Mark),
        hillsLoop H W q bn nb bl centers c0 fuel m hills = some m2 := by
  intro n1
  induction n1 with
  | zero =>
    intro n2
    induction n2 with
    | zero =>
      intro m hills hcv hlen _
      have hnil : hills = [] := List.eq_nil_of_length_eq_zero (by omega)
      subst hnil
      exact ⟨1, m, by rw [hillsLoop]⟩
    | succ n2 ih2 =>
      intro m hills hcv hlen hb
      rcases hills with _ | ⟨pt, rest⟩
      · exact ⟨1, m, by rw [hillsLoop]⟩
      · obtain ⟨P, hP, hPmem⟩ := @hillPushes_shape q (upd m pt GLOBBED) bn nb bl centers
          c0 pt (windowCoords H W pt 1) rest
        have hstale : m pt.1 pt.2 ≠ UNMARKED := by
          intro hu
          have := countv_pos_of (hb pt (List.mem_cons_self _ _)).1
            (hb pt (List.mem_cons_self _ _)).2 hu
          omega
        have hcv2 : countv H W (upd m pt GLOBBED) UNMARKED = countv H W m UNMARKED :=
          countv_upd_stale hstale
        have hPnil : P = [] := by
          rcases hPc : P with _ | ⟨chd, ptl⟩
          · rfl
          · exfalso
            obtain ⟨hcw, hcu⟩ := hPmem chd (hPc ▸ List.mem_cons_self _ _)
            have := countv_pos_of (windowCoords_bounds hcw).1 (windowCoords_bounds hcw).2 hcu
            omega
        rw [hPnil, List.nil_append] at hP
        obtain ⟨fuel, mf, hf⟩ := ih2 (upd m pt GLOBBED) rest (by omega)
          (by simp only [List.length_cons] at hlen; omega)
          (fun p hp => hb p (List.mem_cons_of_mem _ hp))
        refine ⟨fuel + 1, mf, ?_⟩
        rw [hillsLoop, hP]
        exact hf
  | succ n1 ihout =>
    intro n2
    induction n2 with
    | zero =>
      intro m hills hcv hlen _
      have hnil : hills = [] := List.eq_nil_of_length_eq_zero (by omega)
      subst hnil
      exact ⟨1, m, by rw [hillsLoop]⟩
    | succ n2 ih2 =>
      intro m hills hcv hlen hb
      rcases hills with _ | ⟨pt, rest⟩
      · exact ⟨1, m, by rw [hillsLoop]⟩
      · obtain ⟨P, hP, hPmem⟩ := @hillPushes_shape q (upd m pt GLOBBED) bn nb bl centers
          c0 pt (windowCoords H W pt 1) rest
        have hrb : ∀ p ∈ rest, p.1 < H ∧ p.2 < W :=
          fun p hp => hb p (List.mem_cons_of_mem _ hp)
        have hPb : ∀ p ∈ P, p.1 < H ∧ p.2 < W := by
          intro p hp
          exact ⟨(windowCoords_bounds (hPmem p hp).1).1,
            (windowCoords_bounds (hPmem p hp).1).2⟩
        by_cases hfr : m pt.1 pt.2 = UNMARKED
        · have hcv2 : countv H W (upd m pt GLOBBED) UNMARKED < countv H W m UNMARKED :=
            countv_upd_lt (hb pt (List.mem_cons_self _ _)).1
              (hb pt (List.mem_cons_self _ _)).2 hfr (by decide)
          obtain ⟨fuel, mf, hf⟩ := ihout (P ++ rest).length (upd m pt GLOBBED) (P ++ rest)
            (by omega) (le_refl _)
            (by
              intro p hp
              rcases List.mem_append.mp hp with h1 | h2
              · exact hPb p h1
              · exact hrb p h2)
          refine ⟨fuel + 1, mf, ?_⟩
          rw [hillsLoop, hP]
          exact hf
        · have hcv2 : countv H W (upd m pt GLOBBED) UNMARKED = countv H W m UNMARKED :=
            countv_upd_stale hfr
          rcases hPc : P with _ | ⟨chd, ptl⟩
          · rw [hPc, List.nil_append] at hP
            obtain ⟨fuel, mf, hf⟩ := ih2 (upd m pt GLOBBED) rest (by omega)
              (by simp only [List.length_cons] at hlen; omega) hrb
            refine ⟨fuel + 1, mf, ?_⟩
            rw [hillsLoop, hP]
            exact hf
          · obtain ⟨hcw, hcu⟩ := hPmem chd (hPc ▸ List.mem_cons_self _ _)
            have hchb : chd.1 < H ∧ chd.2 < W :=
              ⟨(windowCoords_bounds hcw).1, (windowCoords_bounds hcw).2⟩
            have hcv3 : countv H W (upd (upd m pt GLOBBED) chd GLOBBED) UNMARKED
                < countv H W (upd m pt GLOBBED) UNMARKED :=
              countv_upd_lt hchb.1 hchb.2 hcu (by decide)
            obtain ⟨P2, hP2, hP2mem⟩ := @hillPushes_shape q
              (upd (upd m pt GLOBBED) chd GLOBBED) bn nb bl centers
              c0 chd (windowCoords H W chd 1) (ptl ++ rest)
            obtain ⟨fuel, mf, hf⟩ := ihout (P2 ++ (ptl ++ rest)).length
              (upd (upd m pt GLOBBED) chd GLOBBED) (P2 ++ (ptl ++ rest))
              (by omega) (le_refl _)
              (by
                intro p hp
                rcases List.mem_append.mp hp with h1 | h2
                · exact ⟨(windowCoords_bounds (hP2mem p h1).1).1,
                    (windowCoords_bounds (hP2mem p h1).1).2⟩
                · rcases List.mem_append.mp h2 with h3 | h4
                  · exact hPb p (hPc ▸ List.mem_cons_of_mem _ h3)
                  · exact hrb p h4)
            refine ⟨fuel + 1 + 1, mf, ?_⟩
            rw [hillsLoop, hP, hPc, List.cons_append, hillsLoop, hP2]
            exact hf

theorem set_maximum_mono {H W f1 f2 : Nat} {ew : EW} {q m : Mark} {c : Coord} {bl ci : Int}
    {fh : List (Coord × List Coord)} {out : Bool × Mark × List (Coord × List Coord)}
    (hle : f1 ≤ f2) (h : set_maximum H W f1 ew q m c bl fh ci = some out) :
    set_maximum H W f2 ew q m c bl fh ci = some out := by
  rcases hfl : floodLoop H W q bl (q c.1 c.2) ci f1 (initFlood m c) with _ | st
  · rw [set_maximum_none hfl] at h
    cases h
  · rw [set_maximum_some hfl] at h
    rw [set_maximum_some (floodLoop_mono _ _ _ _ hle hfl)]
    exact h

theorem set_maximum_term {H W : Nat} {ew : EW} {q m : Mark} {c : Coord} {bl ci : Int}
    {fh : List (Coord × List Coord)}
    (hci : ci ≠ UNMARKED) (hcH : c.1 < H) (hcW : c.2 < W)
    (hfh : ∀ r ∈ fh, ∀ p ∈ r.2, p.1 < H ∧ p.2 < W) :
    ∃ (fuel : Nat) (cap : Bool) (m2 : Mark) (fh2 : List (Coord × List Coord)),
      set_maximum H W fuel ew q m c bl fh ci = some (cap, m2, fh2) ∧
      ∀ r ∈ fh2, ∀ p ∈ r.2, p.1 < H ∧ p.2 < W := by
  obtain ⟨st, hst⟩ := floodLoop_term hci (1 + 10 * countv H W m UNMARKED) (initFlood m c)
    (by
      intro p hp
      simp only [initFlood, List.mem_singleton] at hp
      subst hp
      exact ⟨hcH, hcW⟩)
    (by simp [initFlood])
  have hdom : FDom H W q bl c st := by
    refine floodLoop_FDom _ _ _ ⟨?_, ?_, ?_⟩ hst
    · intro p hp
      simp only [initFlood, List.mem_singleton] at hp
      subst hp
      exact ⟨Or.inl rfl, hcH, hcW⟩
    · intro p hp
      simp only [initFlood, List.not_mem_nil] at hp
    · intro p hp
      simp only [initFlood, List.not_mem_nil] at hp
  refine ⟨_, _, _, _, set_maximum_some hst, ?_⟩
  intro r hr p hp
  by_cases hbig : ew.max_size ≤ st.marked_so_far.length
  · rw [if_pos hbig] at hr
    rcases List.mem_append.mp hr with hold | hnew
    · exact hfh r hold p hp
    · rw [List.mem_singleton.mp hnew] at hp
      exact ⟨(hdom.2.2 p hp).2.2.1, (hdom.2.2 p hp).2.2.2⟩
  · rw [if_neg hbig] at hr
    exact hfh r hr p hp

theorem remove_foothills_mono {H W : Nat} {q : Mark} {bn nb : Nat} {bl : Int}
    {centers : Nat → List Coord} :
    ∀ (fhs : List (Coord × List Coord)) (f1 f2 : Nat) (m m2 : Mark), f1 ≤ f2 →
      remove_foothills H W f1 q bn nb bl centers m fhs = some m2 →
      remove_foothills H W f2 q bn nb bl centers m fhs = some m2 := by
  intro fhs
  induction fhs with
  | nil =>
    intro f1 f2 m m2 _ h
    rw [remove_foothills] at h ⊢
    exact h
  | cons r rest ih =>
    obtain ⟨c0, cand⟩ := r
    intro f1 f2 m m2 hle h
    rw [remove_foothills] at h ⊢
    rcases hloop : hillsLoop H W q bn nb bl centers c0 f1 m cand with _ | m1
    · rw [hloop] at h
      dsimp only at h
      cases h
    · rw [hloop] at h
      dsimp only at h
      rw [hillsLoop_mono _ _ _ _ _ hle hloop]
      dsimp only
      exact ih _ _ _ _ hle h

theorem remove_foothills_term {H W : Nat} {q : Mark} {bn nb : Nat} {bl : Int}
    {centers : Nat → List Coord} :
    ∀ (fhs : List (Coord × List Coord)) (m : Mark),
      (∀ r ∈ fhs, ∀ p ∈ r.2, p.1 < H ∧ p.2 < W) →
      ∃ (fuel : Nat) (m2 : Mark),
        remove_foothills H W fuel q bn nb bl centers m fhs = some m2 := by
  intro fhs
  induction fhs with
  | nil => intro m _; exact ⟨1, m, by rw [remove_foothills]⟩
  | cons r rest ih =>
    obtain ⟨c0, cand⟩ := r
    intro m hb
    obtain ⟨f1, m1, h1⟩ := hillsLoop_term (countv H W m UNMARKED) cand.length m cand
      (le_refl _) (le_refl _) (fun p hp => hb (c0, cand) (List.mem_cons_self _ _) p hp)
    obtain ⟨f2, m2, h2⟩ := ih m1 (fun r2 hr2 => hb r2 (List.mem_cons_of_mem _ hr2))
    refine ⟨max f1 f2, m2, ?_⟩
    rw [remove_foothills]
    rw [hillsLoop_mono _ _ _ _ _ (le_max_left f1 f2) h1]
    dsimp only
    exact remove_foothills_mono _ _ _ _ _ (le_max_right f1 f2) h2

theorem seedLoop_mono {H W f1 f2 : Nat} {ew : EW} {q : Mark} (hle : f1 ≤ f2) :
    ∀ (seeds : List Coord) (bl : Int) (m : Mark) (ci : Int)
      (fh : List (Coord × List Coord)) (dq : List Coord)
      (out : Mark × Int × List (Coord × List Coord) × List Coord × Int),
      seedLoop H W f1 ew q seeds bl m ci fh dq = some out →
      seedLoop H W f2 ew q seeds bl m ci fh dq = some out := by
  intro seeds
  induction seeds with
  | nil =>
    intro bl m ci fh dq out h
    rw [seedLoop] at h ⊢
    exact h
  | cons c rest ih =>
    intro bl m ci fh dq out h
    simp only [seedLoop] at h ⊢
    by_cases hm : m c.1 c.2 = UNMARKED
    · rw [if_pos hm] at h ⊢
      rcases hsm : set_maximum H W f1 ew q m c (if bl < 0 then 0 else bl) fh ci
        with _ | ⟨cap, mS, fhS⟩
      · rw [hsm] at h
        exact absurd h (by simp)
      · rw [hsm] at h
        dsimp only at h
        rw [set_maximum_mono hle hsm]
        dsimp only
        cases cap with
        | true =>
          rw [if_pos rfl] at h ⊢
          exact ih _ _ _ _ _ _ h
        | false =>
          rw [if_neg (by simp)] at h ⊢
          exact ih _ _ _ _ _ _ h
    · rw [if_neg hm] at h ⊢
      exact ih _ _ _ _ _ _ h

theorem seedLoop_term {H W : Nat} {ew : EW} {q : Mark} :
    ∀ (seeds : List Coord) (bl : Int) (m : Mark) (ci : Int)
      (fh : List (Coord × List Coord)) (dq : List Coord),
      1 ≤ ci →
      (∀ s ∈ seeds, s.1 < H ∧ s.2 < W) →
      (∀ r ∈ fh, ∀ p ∈ r.2, p.1 < H ∧ p.2 < W) →
      (∀ p ∈ dq, p.1 < H ∧ p.2 < W) →
      ∃ (fuel : Nat) (m2 : Mark) (ci2 : Int) (fh2 : List (Coord × List Coord))
        (dq2 : List Coord) (bl2 : Int),
        seedLoop H W fuel ew q seeds bl m ci fh dq = some (m2, ci2, fh2, dq2, bl2) ∧
        1 ≤ ci2 ∧ (∀ r ∈ fh2, ∀ p ∈ r.2, p.1 < H ∧ p.2 < W) ∧
        (∀ p ∈ dq2, p.1 < H ∧ p.2 < W) := by
  intro seeds
  induction seeds with
  | nil =>
    intro bl m ci fh dq hci _ hfh hdq
    exact ⟨1, m, ci, fh, dq, bl, by rw [seedLoop], hci, hfh, hdq⟩
  | cons c rest ih =>
    intro bl m ci fh dq hci hseeds hfh hdq
    have hc := hseeds c (List.mem_cons_self _ _)
    have hrest : ∀ s ∈ rest, s.1 < H ∧ s.2 < W :=
      fun s hs => hseeds s (List.mem_cons_of_mem _ hs)
    by_cases hm : m c.1 c.2 = UNMARKED
    · obtain ⟨f1, cap, mS, fhS, hsm, hfhS⟩ :=
        set_maximum_term (show ci ≠ UNMARKED by unfold UNMARKED; omega) hc.1 hc.2 hfh
      cases cap with
      | true =>
        obtain ⟨f2, m2, ci2, fh2, dq2, bl2, hrec, hci2, hfh2, hdq2⟩ :=
          ih (if bl < 0 then 0 else bl) mS (ci + 1) fhS dq (by omega) hrest hfhS hdq
        refine ⟨max f1 f2, m2, ci2, fh2, dq2, bl2, ?_, hci2, hfh2, hdq2⟩
        simp only [seedLoop]
        rw [if_pos hm, set_maximum_mono (le_max_left f1 f2) hsm]
        dsimp only
        rw [if_pos rfl]
        exact seedLoop_mono (le_max_right f1 f2) _ _ _ _ _ _ _ hrec
      | false =>
        obtain ⟨f2, m2, ci2, fh2, dq2, bl2, hrec, hci2, hfh2, hdq2⟩ :=
          ih (if bl < 0 then 0 else bl) mS ci fhS (dq ++ [c]) hci hrest hfhS
            (by
              intro p hp
              rcases List.mem_append.mp hp with h1 | h2
              · exact hdq p h1
              · rw [List.mem_singleton.mp h2]
                exact hc)
        refine ⟨max f1 f2, m2, ci2, fh2, dq2, bl2, ?_, hci2, hfh2, hdq2⟩
        simp only [seedLoop]
        rw [if_pos hm, set_maximum_mono (le_max_left f1 f2) hsm]
        dsimp only
        rw [if_neg (by simp)]
        exact seedLoop_mono (le_max_right f1 f2) _ _ _ _ _ _ _ hrec
    · obtain ⟨f2, m2, ci2, fh2, dq2, bl2, hrec, hci2, hfh2, hdq2⟩ :=
        ih (if bl < 0 then 0 else bl) m ci fh dq hci hrest hfh hdq
      refine ⟨f2, m2, ci2, fh2, dq2, bl2, ?_, hci2, hfh2, hdq2⟩
      simp only [seedLoop]
      rw [if_neg hm]
      exact hrec

theorem levelLoop_mono {H W f1 f2 : Nat} {ew : EW} {q : Mark} {centers : Nat → List Coord}
    (hle : f1 ≤ f2) :
    ∀ (bins : List Nat) (m : Mark) (ci : Int) (deferred : List Coord) (out : Mark × Int),
      levelLoop H W f1 ew q centers bins m ci deferred = some out →
      levelLoop H W f2 ew q centers bins m ci deferred = some out := by
  intro bins
  induction bins with
  | nil =>
    intro m ci deferred out h
    rw [levelLoop] at h ⊢
    exact h
  | cons b rest ih =>
    intro m ci deferred out h
    rw [levelLoop] at h ⊢
    rcases hseed : seedLoop H W f1 ew q (deferred ++ centers b) ((b : Int) - 1) m ci [] []
      with _ | ⟨m2, ci2, fh, dq, bl⟩
    · rw [hseed] at h
      dsimp only at h
      cases h
    · rw [hseed] at h
      dsimp only at h
      rw [seedLoop_mono hle _ _ _ _ _ _ _ hseed]
      dsimp only
      rcases hrf : remove_foothills H W f1 q b ew.binCount bl centers m2 fh with _ | m3
      · rw [hrf] at h
        dsimp only at h
        cases h
      · rw [hrf] at h
        dsimp only at h
        rw [remove_foothills_mono _ _ _ _ _ hle hrf]
        dsimp only
        exact ih _ _ _ _ h

theorem levelLoop_term {H W : Nat} {ew : EW} {q : Mark} {centers : Nat → List Coord}
    (hcen : ∀ b : Nat, ∀ p ∈ centers b, p.1 < H ∧ p.2 < W) :
    ∀ (bins : List Nat) (m : Mark) (ci : Int) (deferred : List Coord),
      1 ≤ ci → (∀ p ∈ deferred, p.1 < H ∧ p.2 < W) →
      ∃ (fuel : Nat) (out : Mark × Int),
        levelLoop H W fuel ew q centers bins m ci deferred = some out := by
  intro bins
  induction bins with
  | nil => intro m ci deferred _ _; exact ⟨1, (m, ci), by rw [levelLoop]⟩
  | cons b rest ih =>
    intro m ci deferred hci hdef
    obtain ⟨f1, m2, ci2, fh, dq, bl, hseed, hci2, hfh, hdq⟩ :=
      seedLoop_term (deferred ++ centers b) ((b : Int) - 1) m ci [] [] hci
        (by
          intro s hs
          rcases List.mem_append.mp hs with h1 | h2
          · exact hdef s h1
          · exact hcen b s h2)
        (by intro r hr; exact absurd hr (List.not_mem_nil _))
        (by intro p hp; exact absurd hp (List.not_mem_nil _))
    obtain ⟨f2, m3, hrf⟩ := remove_foothills_term fh m2 hfh
    obtain ⟨f3, out, hrec⟩ := ih m3 ci2 dq hci2 hdq
    refine ⟨max f1 (max f2 f3), out, ?_⟩
    rw [levelLoop]
    rw [seedLoop_mono (le_max_left f1 (max f2 f3)) _ _ _ _ _ _ _ hseed]
    dsimp only
    rw [remove_foothills_mono _ _ _ _ _ (le_trans (le_max_left f2 f3)
      (le_max_right f1 (max f2 f3))) hrf]
    dsimp only
    exact levelLoop_mono (le_trans (le_max_right f2 f3) (le_max_right f1 (max f2 f3)))
      _ _ _ _ _ hrec

theorem grow_centers_term {H W : Nat} {ew : EW} {q : Mark} {centers : Nat → List Coord}
    (hcen : ∀ b : Nat, ∀ p ∈ centers b, p.1 < H ∧ p.2 < W) :
    ∃ (fuel : Nat) (out : Mark × Int), grow_centers H W fuel ew centers q = some out := by
  obtain ⟨fuel, out, h⟩ := levelLoop_term hcen (List.range ew.binCount).reverse
    (fun _ _ => UNMARKED) 1 [] (le_refl _)
    (by intro p hp; exact absurd hp (List.not_mem_nil _))
  exact ⟨fuel, out, h⟩

/-- Claim C8: `label` terminates on every grid and configuration — for
some finite fuel every loop of the pipeline (the LIFO flood list of each
`set_maximum` call, each foothill flood, the per-level seed loop and the
bin-descending level loop) runs to completion and `label` returns a
grid. -/
theorem C8_label_terminates (ew : EW) (H W : Nat) (g : Mark) (oo : Bool) :
    ∃ (fuel : Nat) (out : Mark), label ew H W fuel g oo = some out := by
  obtain ⟨fuel, out, hgc⟩ := @grow_centers_term H W ew (quantizeData ew g)
    (find_local_maxima H W ew (pixelsOf H W (quantizeData ew g)))
    (fun b p hp => ⟨(centers_spec hp).1, (centers_spec hp).2.1⟩)
  obtain ⟨m, ci⟩ := out
  refine ⟨fuel, if oo then (fun i j => if 0 < m i j then m i j else 0) else m, ?_⟩
  simp only [label]
  rw [hgc]

end MontePython
